import Mathlib

/-!
Shallow embedding of the openrdap/rdap bootstrap subsystem (Go) in Lean 4,
with theorems checking the natural-language specification against the code.

Conventions used throughout:
in the Go source, URLs are parsed values of the external package net/url; here a URL
is represented by its raw string. Calls into the Go standard library that parse
strings into structured network values (net.ParseCIDR, url.Parse) are taken as
oracle parameters of the corresponding definitions; everything else is translated
directly from the repository source. Machine integers (uint32, byte values) are
modelled as Nat with explicit bounds. Go loops are embedded as structural
recursion, using an explicit gas argument (always called with enough gas) where
the loop measure is not syntactic.
-/

namespace Rdap

/-- Result of a bootstrap lookup, modelling the Go struct bootstrap.Result
(bootstrap/client.go): the canonicalised query, the matched service entry
(empty string when there is no match) and the list of RDAP base URLs. -/
structure Result where
  Query : String
  Entry : String
  URLs  : List String
deriving DecidableEq

/-- Models strings.ToLower restricted to the character-wise mapping
(ASCII-faithful; the registries only meet ASCII data). -/
def goToLower (s : String) : String :=
  String.mk (s.data.map Char.toLower)

/-- Models strings.TrimSuffix(s, ".") from the Go standard library: removes one
trailing dot when present. -/
def goTrimDotSuffix (s : String) : String :=
  if s.data.getLast? = some ('.') then String.mk s.data.dropLast else s

/-- Models the Go conversion string(rune(n)) applied to a uint32, as performed by
the expression string(asn) in ASNRegistry.Lookup: the number is interpreted as a
Unicode code point (the replacement character when invalid), not printed in
decimal. -/
def goRuneString (n : Nat) : String :=
  if n < 55296 ∨ (57344 ≤ n ∧ n < 1114112) then String.singleton (Char.ofNat n)
  else String.singleton (Char.ofNat 65533)

/-- Models strconv.ParseUint(s, 10, 32): a non-empty all-decimal-digit string
whose value fits in 32 bits; anything else is a parse error (none). -/
def parseUint32Chars (l : List Char) : Option Nat :=
  if l = [] then none
  else if l.all (fun c => c.isDigit) then
    let v := l.foldl (fun a c => a * 10 + (c.toNat - 48)) 0
    if v < 4294967296 then some v else none
  else none

/-- Association-list lookup modelling a read from a Go map with string keys
(first binding wins; the maps built by the registry file parser have unique
keys). -/
def lookupMap (m : List (String × List String)) (k : String) : Option (List String) :=
  match m with
  | [] => none
  | p :: rest => if p.1 = k then some p.2 else lookupMap rest k

/-- Go sort.Search loop body (src sort.Search): binary search for the least
index in [i, j) satisfying f, embedded with explicit gas; gas is always called
with at least j - i, which the invariant lemmas assume. -/
def ssAux (f : Nat → Bool) : Nat → Nat → Nat → Nat
  | 0, i, _ => i
  | gas + 1, i, j =>
    if i < j then
      let m := (i + j) / 2
      if f m then ssAux f gas i m else ssAux f gas (m + 1) j
    else i

/-- Models sort.Search(n, f) from the Go standard library. -/
def sortSearch (n : Nat) (f : Nat → Bool) : Nat :=
  ssAux f n 0 n

/-! ## Registry cache (bootstrap/cache) -/

/-- Models cache.FileState (bootstrap/cache, FileState constants). -/
inductive FileState
  | Absent
  | Good
  | ShouldReload
  | Expired
deriving DecidableEq

/-- Models cache.DiskCache (bootstrap/cache/disk_cache.go). Time is modelled as
Int (time.Time instants and time.Duration); the cache directory contents are an
external mapping from filename to modification time, passed explicitly. The
per-instance field lastLoaded models lastLoadedModTime. -/
structure DiskCache where
  Timeout : Int
  lastLoaded : String → Option Int

/-- The shared on-disk state: each filename maps to the mtime of the cache file,
none when the file does not exist. File bytes are irrelevant to the freshness
state machine and omitted. -/
def FsState := String → Option Int

/-- Pointwise update of a filename-indexed table. -/
def updateAt (f : String → Option Int) (k : String) (v : Int) : String → Option Int :=
  fun k2 => if k2 = k then some v else f k2

/-- Models DiskCache.Save (disk_cache.go lines 67-86) executed at instant now:
writes the file (its mtime becomes now) and records the freshly observed mtime
in lastLoadedModTime. -/
def DiskCache.Save (fs : FsState) (d : DiskCache) (filename : String) (now : Int) :
    FsState × DiskCache :=
  (updateAt fs filename now, { d with lastLoaded := updateAt d.lastLoaded filename now })

/-- Models DiskCache.Load (disk_cache.go lines 88-109): fails when the file does
not exist, otherwise records the observed on-disk mtime in lastLoadedModTime. -/
def DiskCache.Load (fs : FsState) (d : DiskCache) (filename : String) : Option DiskCache :=
  match fs filename with
  | none => none
  | some t => some { d with lastLoaded := updateAt d.lastLoaded filename t }

/-- Models DiskCache.State (disk_cache.go lines 111-135) evaluated at instant
now: Absent without a file; Expired when the mtime is not after now - Timeout;
otherwise Good exactly when this instance has already loaded the current on-disk
version, and ShouldReload otherwise. -/
def DiskCache.StateOf (fs : FsState) (d : DiskCache) (filename : String) (now : Int) :
    FileState :=
  match fs filename with
  | none => .Absent
  | some mtime =>
    if now - d.Timeout < mtime then
      match d.lastLoaded filename with
      | some l => if mtime ≤ l then .Good else .ShouldReload
      | none => .ShouldReload
    else .Expired

/-! ## Registry file parser (bootstrap, func parse) -/

/-- The JSON document after decoding, modelling the anonymous struct unmarshalled
by func parse: optional string fields and Services as [][][]string. JSON
decoding itself (encoding/json) is external; parse is modelled from this decoded
form on. -/
structure ServicesDoc where
  Description : String
  Publication : String
  Version : String
  Services : List (List (List String))

/-- Models the struct registryFile built by func parse. Entries maps a service
key to its RDAP base URLs (URLs kept as raw strings, see the URL convention in
the file header). -/
structure registryFile where
  Description : String
  Publication : String
  Version : String
  Entries : String → Option (List String)

/-- Map insertion with overwrite, modelling b.Entries[entry] = urls. -/
def updEntries (a : String → Option (List String)) (k : String) (v : List String) :
    String → Option (List String) :=
  fun k2 => if k2 = k then some v else a k2

/-- The services loop of func parse: each entry must have exactly 2 elements
(else a structural error); URLs failing url.Parse (the urlOk oracle) are
silently dropped; when at least one URL remains, every key of the entry is
mapped to the filtered URL list (overwriting earlier bindings). -/
def buildEntries (urlOk : String → Bool) :
    List (List (List String)) → (String → Option (List String)) →
    Except String (String → Option (List String))
  | [], acc => .ok acc
  | s :: rest, acc =>
    if s.length ≠ 2 then .error ("Malformed bootstrap (bad services array)")
    else
      let keys := s.getD 0 []
      let urls := (s.getD 1 []).filter urlOk
      let acc2 := if 0 < urls.length then keys.foldl (fun a k => updEntries a k urls) acc else acc
      buildEntries urlOk rest acc2

/-- Models func parse (bootstrap, registry file parser), from the decoded
document on; urlOk is the url.Parse success oracle. -/
def parse (urlOk : String → Bool) (doc : ServicesDoc) : Except String registryFile :=
  match buildEntries urlOk doc.Services (fun _ => none) with
  | .error e => .error e
  | .ok entries => .ok ⟨doc.Description, doc.Publication, doc.Version, entries⟩

/-! ## ASN registry (bootstrap/asn_registry.go)

The registries below consume the parsed Entries map as an association list of
(key, URL list) pairs, which is how the Go code iterates it (map iteration
order is arbitrary in Go; the theorems hold for every list order). -/

/-- Models bootstrap.ASNRange. -/
structure ASNRange where
  MinASN : Nat
  MaxASN : Nat
  URLs : List String
deriving DecidableEq

/-- Models the method ASNRange.String (asn_registry.go lines 30-36). -/
def ASNRange.renderAS (a : ASNRange) : String :=
  if a.MinASN = a.MaxASN then ("AS") ++ Nat.repr a.MinASN
  else ("AS") ++ Nat.repr a.MinASN ++ ("-AS") ++ Nat.repr a.MaxASN

/-- Models bootstrap.ASNRegistry. -/
structure ASNRegistry where
  ASNs : List ASNRange
deriving DecidableEq

/-- Models parseASN (asn_registry.go lines 111-121): strings.ToLower, then
strings.TrimLeft with cutset "as" (dropping every leading character that is
one of 'a', 's'), then strconv.ParseUint(_, 10, 32). -/
def parseASN (s : String) : Option Nat :=
  parseUint32Chars ((s.data.map Char.toLower).dropWhile (fun c => c = 'a' || c = 's'))

/-- Models parseASNRange (asn_registry.go lines 123-153): split on '-', expect
one or two components, parse each as uint32, swap so that min ≤ max. -/
def parseASNRange (s : String) : Option (Nat × Nat) :=
  let asns := s.data.splitOn ('-')
  if asns.length = 1 then
    (parseUint32Chars (asns.getD 0 [])).map (fun v => (v, v))
  else if asns.length = 2 then
    match parseUint32Chars (asns.getD 0 []), parseUint32Chars (asns.getD 1 []) with
    | some mn, some mx => some (if mn > mx then (mx, mn) else (mn, mx))
    | _, _ => none
  else none

/-- Models NewASNRegistry (asn_registry.go lines 55-82), from the parsed
Entries list on: keys failing parseASNRange are skipped, the rest are sorted in
ascending MinASN order (sort.Sort with asnRangeSorter). -/
def NewASNRegistry (entries : List (String × List String)) : ASNRegistry :=
  let a := entries.filterMap (fun p =>
    (parseASNRange p.1).map (fun mm => ASNRange.mk mm.1 mm.2 p.2))
  ⟨List.insertionSort (fun x y => x.MinASN ≤ y.MinASN) a⟩

/-- Out-of-range slice read default (never reached under the index checks the
code performs). -/
def dummyRange : ASNRange := ⟨0, 0, []⟩

/-- Models ASNRegistry.Lookup (asn_registry.go lines 84-109). Note the Query
field: the Go code computes string(asn), a rune conversion. -/
def ASNRegistry.Lookup (a : ASNRegistry) (input : String) : Except String Result :=
  match parseASN input with
  | none => .error ("invalid AS number")
  | some asn =>
    let idx := sortSearch a.ASNs.length (fun i => decide (asn ≤ (a.ASNs.getD i dummyRange).MaxASN))
    if idx ≠ a.ASNs.length ∧
        ((a.ASNs.getD idx dummyRange).MinASN ≤ asn ∧ asn ≤ (a.ASNs.getD idx dummyRange).MaxASN) then
      .ok ⟨goRuneString asn, (a.ASNs.getD idx dummyRange).renderAS, (a.ASNs.getD idx dummyRange).URLs⟩
    else
      .ok ⟨goRuneString asn, "", []⟩

/-! ## DNS registry (bootstrap/dns_registry.go) -/

/-- Models bootstrap.DNSRegistry: the parsed Entries map, as an association
list. -/
structure DNSRegistry where
  DNS : List (String × List String)
deriving DecidableEq

/-- One reduction step of the Lookup loop: strings.IndexByte(fqdn, '.') followed
by fqdn = fqdn[index+1:], or the empty string when there is no dot. -/
def dropThroughDot (l : List Char) : List Char :=
  if l.any (fun c => c = '.') then (l.dropWhile (fun c => ¬ c = '.')).tail else []

/-- The Lookup loop of DNSRegistry.Lookup (dns_registry.go lines 45-61),
embedded with gas (called with more gas than the length of the name, which
strictly decreases at every step). Returns the matched key and its URLs, or
the pair of the empty string and the empty list when even the root zone has no
entry. -/
def dnsLoopAux (m : List (String × List String)) : Nat → List Char → String × List String
  | 0, fqdn => (String.mk fqdn, [])
  | gas + 1, fqdn =>
    match lookupMap m (String.mk fqdn) with
    | some urls => (String.mk fqdn, urls)
    | none => if fqdn = [] then ("", []) else dnsLoopAux m gas (dropThroughDot fqdn)

/-- Models DNSRegistry.Lookup (dns_registry.go lines 33-68): canonicalise by
stripping one trailing dot and lowercasing, then hierarchical suffix search. -/
def DNSRegistry.Lookup (d : DNSRegistry) (input : String) : Result :=
  let canon := goToLower (goTrimDotSuffix input)
  let r := dnsLoopAux d.DNS (canon.data.length + 1) canon.data
  ⟨canon, r.1, r.2⟩

/-! ## Service provider registry (bootstrap/service_provider_registry.go) -/

/-- Models bootstrap.ServiceProviderRegistry: the map of service tags to RDAP
base URLs, as an association list. -/
structure ServiceProviderRegistry where
  Services : List (String × List String)
deriving DecidableEq

/-- Models ServiceProviderRegistry.Lookup (service_provider_registry.go lines
46-69): strings.IndexByte(input, '~') locates the first '~'; no separator or a
separator in final position yields an empty Result; otherwise the text after
that first separator is looked up as the service tag, unknown tags yielding an
empty Result. Never an error. -/
def ServiceProviderRegistry.Lookup (s : ServiceProviderRegistry) (input : String) :
    Except String Result :=
  match input.data.findIdx? (fun c => c = '~') with
  | none => .ok ⟨input, "", []⟩
  | some off =>
    if off = input.data.length - 1 then .ok ⟨input, "", []⟩
    else
      let service := String.mk (input.data.drop (off + 1))
      match lookupMap s.Services service with
      | some urls => .ok ⟨input, service, urls⟩
      | none => .ok ⟨input, "", []⟩

/-! ## Network registry (bootstrap, NetRegistry) -/

/-- Models the value of a parsed *net.IPNet as returned by net.ParseCIDR: the
byte length of the address (4 or 16), the network starting address as a
big-endian natural number (len(IP) bytes), and the ones-count of the mask.
net.ParseCIDR returns the address already masked. -/
structure IPNet where
  ipLen : Nat
  addr : Nat
  maskLen : Nat
deriving DecidableEq

/-- Keep the top m of bits bits of x: the (bits - m) low bits are cleared.
Models masking an address with net.CIDRMask(m, bits). -/
def maskBits (bits m x : Nat) : Nat :=
  x / 2 ^ (bits - m) * 2 ^ (bits - m)

/-- Models the method net.IPNet.Contains applied to an address of qLen bytes
with value q (big-endian), for networks whose stored address has the same
length: the query masked with the network mask must equal the network
address. -/
def IPNet.containsAddr (net : IPNet) (qLen q : Nat) : Bool :=
  qLen == net.ipLen && maskBits (8 * net.ipLen) net.maskLen q == net.addr

/-- Models bootstrap.NetEntry. -/
structure NetEntry where
  Net : IPNet
  URLs : List String
deriving DecidableEq

/-- Models bootstrap.NetRegistry: entries bucketed by mask length (the Go map
from mask size to sorted slice, represented as a list of pairs with distinct
mask keys), plus the address family byte length. -/
structure NetRegistry where
  Networks : List (Nat × List NetEntry)
  numIPBytes : Nat

/-- Models numIPBytesForVersion (net registry source lines 131-144); only
called after the version check, so other arguments are never reached. -/
def numIPBytesForVersion (v : Nat) : Nat :=
  if v = 4 then 4 else 16

/-- Out-of-range slice read default (never reached under the index checks the
code performs). -/
def dummyNetEntry : NetEntry := ⟨⟨0, 0, 0⟩, []⟩

/-- Models NewNetRegistry (net registry source lines 42-79), from the parsed
Entries list on, with net.ParseCIDR as the parseCIDR oracle: entries whose CIDR
fails to parse or whose address byte length differs from the family are
discarded; the rest are bucketed by mask size, each bucket sorted by network
address (sort.Sort with netEntrySorter). -/
def NewNetRegistry (parseCIDR : String → Option IPNet)
    (entries : List (String × List String)) (ipVersion : Nat) :
    Except String NetRegistry :=
  if ipVersion ≠ 4 ∧ ipVersion ≠ 6 then .error ("Unknown IP version")
  else
    let nb := numIPBytesForVersion ipVersion
    let parsed : List NetEntry := entries.filterMap (fun p =>
      match parseCIDR p.1 with
      | none => none
      | some net => if net.ipLen ≠ nb then none else some ⟨net, p.2⟩)
    let masks := (parsed.map (fun e => e.Net.maskLen)).dedup
    let networks := masks.map (fun m =>
      (m, List.insertionSort (fun a b : NetEntry => a.Net.addr ≤ b.Net.addr)
            (parsed.filter (fun e => e.Net.maskLen == m))))
    .ok { Networks := networks, numIPBytes := nb }

/-- All entries stored in the registry, across buckets. -/
def regEntries (reg : NetRegistry) : List NetEntry :=
  (reg.Networks.map Prod.snd).flatten

/-- One iteration of the Lookup loop over the mask-length buckets (net registry
source lines 105-122): buckets less specific than the best hit so far or more
specific than the query mask are skipped; otherwise the bucket is binary
searched (sort.Search with the Contains-or-compare predicate) and a containing
network found there replaces the best hit. -/
def netLookupStep (netString : IPNet → String) (q : IPNet)
    (best : String × Nat × List String) (bucket : Nat × List NetEntry) :
    String × Nat × List String :=
  if bucket.1 < best.2.1 ∨ q.maskLen < bucket.1 then best
  else
    let nets := bucket.2
    let idx := sortSearch nets.length (fun i =>
      (nets.getD i dummyNetEntry).Net.containsAddr q.ipLen q.addr ||
        decide (q.addr ≤ (nets.getD i dummyNetEntry).Net.addr))
    if idx = nets.length then best
    else if (nets.getD idx dummyNetEntry).Net.containsAddr q.ipLen q.addr then
      (netString (nets.getD idx dummyNetEntry).Net, bucket.1,
        (nets.getD idx dummyNetEntry).URLs)
    else best

/-- The effective lookup string (net registry source lines 82-85): a bare
address with no '/' has a full-length mask appended (/32 or /128). -/
def effectiveInput (numIPBytes : Nat) (input : String) : String :=
  if input.data.any (fun c => c = '/') then input
  else input ++ ("/") ++ Nat.repr (numIPBytes * 8)

/-- Models NetRegistry.Lookup (net registry source lines 81-129), with
net.ParseCIDR and the method net.IPNet.String as oracles. A bare address (no
'/') gets a full-length mask appended; parse failures and address-family
mismatches are errors; otherwise every bucket with mask length between the best
mask so far and the query mask is binary searched for a network containing the
query starting address, keeping the longest-mask hit. -/
def NetRegistry.Lookup (parseCIDR : String → Option IPNet) (netString : IPNet → String)
    (n : NetRegistry) (input : String) : Except String Result :=
  let input2 := effectiveInput n.numIPBytes input
  match parseCIDR input2 with
  | none => .error ("invalid CIDR")
  | some q =>
    if q.ipLen ≠ n.numIPBytes then .error ("Lookup address has wrong IP protocol")
    else
      let best := n.Networks.foldl (netLookupStep netString q)
        (("", 0, []) : String × Nat × List String)
      .ok ⟨input2, best.1, best.2.2⟩

/-! ## Bootstrap client (bootstrap/client.go)

The client is modelled over an abstract registry value type R (the in-memory
Typed Registry instances) and an environment of oracles standing for the
external collaborators: the cache (its freshness state, loads and save
outcomes), the HTTP transport, and registry construction (newRegistry). The
per-type in-memory instances form a map from RegistryType to Option R. -/

/-- Models bootstrap.RegistryType. -/
inductive RegistryType
  | DNS
  | IPv4
  | IPv6
  | ASN
  | ServiceProvider
deriving DecidableEq

/-- Models the method RegistryType.Filename (client.go lines 776-793). -/
def RegistryType.Filename : RegistryType → String
  | .ASN => ("asn.json")
  | .DNS => ("dns.json")
  | .IPv4 => ("ipv4.json")
  | .IPv6 => ("ipv6.json")
  | .ServiceProvider => ("serviceprovider-draft-03.json")

/-- Oracles for the client model. Bytes are modelled as List Nat. -/
structure Env (R : Type) where
  /-- Cache.State at the instant the Lookup or accessor runs. -/
  cacheState : String → FileState
  /-- Cache.Load outcome per filename. -/
  cacheLoad : String → Except String (List Nat)
  /-- newRegistry (client.go lines 660-680): build a Typed Registry from
  downloaded or cached bytes. -/
  newRegistry : RegistryType → List Nat → Except String R
  /-- The HTTP transport: result of fetching the registry file document, an
  error standing for network failure or a non-200 status. -/
  httpGet : RegistryType → Except String (List Nat)
  /-- Cache.Save outcome per filename (none means success). -/
  saveErr : String → Option String

/-- The per-type in-memory registry instances (c.registries). -/
def Registries (R : Type) := RegistryType → Option R

/-- Update one slot of the registries map. -/
def updateReg {R : Type} (regs : Registries R) (t : RegistryType) (r : R) : Registries R :=
  fun t2 => if t2 = t then some r else regs t2

/-- Models Client.download (client.go lines 596-633): HTTP fetch then
newRegistry; either failure is an error for the call. -/
def clientFetch {R : Type} (env : Env R) (t : RegistryType) : Except String (List Nat × R) :=
  match env.httpGet t with
  | .error e => .error e
  | .ok bytes =>
    match env.newRegistry t bytes with
    | .error e => .error e
    | .ok r => .ok (bytes, r)

/-- Models Client.DownloadWithContext (client.go lines 573-594): download, save
to cache, and on full success replace the in-memory instance for this type. -/
def clientDownload {R : Type} (env : Env R) (regs : Registries R) (t : RegistryType) :
    Registries R × Except String R :=
  match clientFetch env t with
  | .error e => (regs, .error e)
  | .ok br =>
    match env.saveErr t.Filename with
    | some e => (regs, .error e)
    | none => (updateReg regs t br.2, .ok br.2)

/-- Models Client.reloadFromCache (client.go lines 641-658): load the cached
bytes and parse them into a fresh instance; on success replace the slot, on
any failure leave the registries untouched and report the error. -/
def clientReloadFromCache {R : Type} (env : Env R) (regs : Registries R) (t : RegistryType) :
    Registries R × Option String :=
  match env.cacheLoad t.Filename with
  | .error e => (regs, some e)
  | .ok bytes =>
    match env.newRegistry t bytes with
    | .error e => (regs, some e)
    | .ok r => (updateReg regs t r, none)

/-- Models Client.freshenFromCache (client.go lines 635-639): reload only when
the cache state of the filename is ShouldReload, ignoring any reload error. -/
def clientFreshenFromCache {R : Type} (env : Env R) (regs : Registries R) (t : RegistryType) :
    Registries R :=
  if env.cacheState t.Filename = .ShouldReload then (clientReloadFromCache env regs t).1
  else regs

/-- Models Client.Lookup (client.go lines 683-718). Returns the registries
after the call, whether a network download was performed, and the call result
(lk is the Lookup method of the Typed Registry instance, applied to the
question). -/
def clientLookup {R : Type} (env : Env R) (regs : Registries R) (t : RegistryType)
    (lk : R → Except String Result) : Registries R × Bool × Except String Result :=
  let pr :=
    if env.cacheState t.Filename = .ShouldReload then
      match clientReloadFromCache env regs t with
      | (regs2, none) => (regs2, false)
      | (regs2, some _) => (regs2, true)
    else (regs, false)
  let regs1 := pr.1
  let forceDownload := pr.2
  if (regs1 t).isNone || forceDownload then
    match clientDownload env regs1 t with
    | (regs2, .error e) => (regs2, true, .error e)
    | (regs2, .ok r) => (regs2, true, lk r)
  else
    match regs1 t with
    | some r => (regs1, false, lk r)
    | none => (regs1, false, .error ("nil registry"))

/-- Models the accessors Client.ASN, Client.DNS, Client.IPv4, Client.IPv6 and
Client.ServiceProvider (client.go lines 720-774): each one runs
freshenFromCache(ServiceProvider) and then returns the current instance of the
requested type. Returns the registries after the call and the returned
instance. -/
def clientAccessor {R : Type} (env : Env R) (regs : Registries R) (t : RegistryType) :
    Registries R × Option R :=
  let regs1 := clientFreshenFromCache env regs .ServiceProvider
  (regs1, regs1 t)

/-! ## Theorems: disk cache state machine (claim C2) -/

theorem updateAt_same (g : String → Option Int) (k : String) (v : Int) :
    updateAt g k v k = some v := by
  simp [updateAt]

theorem stateOf_good_iff (fs0 : FsState) (d : DiskCache) (f : String) (now : Int) :
    DiskCache.StateOf fs0 d f now = .Good ↔
      ∃ m, fs0 f = some m ∧ now - m < d.Timeout ∧
        ∃ l, d.lastLoaded f = some l ∧ m ≤ l := by
  unfold DiskCache.StateOf
  constructor
  · intro h
    rcases hm : fs0 f with _ | m
    · simp only [hm] at h
      exact absurd h (by simp)
    · simp only [hm] at h
      by_cases hin : now - d.Timeout < m
      · rw [if_pos hin] at h
        rcases hl : d.lastLoaded f with _ | l
        · simp only [hl] at h
          exact absurd h (by simp)
        · simp only [hl] at h
          by_cases hml : m ≤ l
          · exact ⟨m, rfl, by omega, l, rfl, hml⟩
          · rw [if_neg hml] at h
            exact absurd h (by simp)
      · rw [if_neg hin] at h
        exact absurd h (by simp)
  · rintro ⟨m, hm, hin, l, hl, hml⟩
    simp only [hm, hl]
    rw [if_pos (by omega), if_pos hml]

theorem stateOf_shouldReload_of (fs0 : FsState) (d : DiskCache) (f : String) (now m : Int)
    (hm : fs0 f = some m) (hin : now - m < d.Timeout)
    (hl : ∀ l, d.lastLoaded f = some l → l < m) :
    DiskCache.StateOf fs0 d f now = .ShouldReload := by
  unfold DiskCache.StateOf
  simp only [hm]
  rw [if_pos (by omega)]
  rcases hld : d.lastLoaded f with _ | l
  · simp only [hld]
  · simp only [hld]
    rw [if_neg (by have := hl l hld; omega)]

theorem stateOf_expired_of (fs0 : FsState) (d : DiskCache) (f : String) (now m : Int)
    (hm : fs0 f = some m) (hin : d.Timeout ≤ now - m) :
    DiskCache.StateOf fs0 d f now = .Expired := by
  unfold DiskCache.StateOf
  simp only [hm]
  rw [if_neg (by omega)]

/-- C2: the disk-backed cache follows the four-state machine. A filename with
no on-disk entry is Absent for every instance; after instance A saves at
instant t, A is Good while the timeout has not elapsed; any other instance B
whose recorded last-loaded mtime predates the save (or is absent) is
ShouldReload until it performs a Load, after which it is Good; once the age of
the entry exceeds the timeout the state is Expired for every instance; and
State is Good iff an entry exists, its mtime is within the timeout, and the
instance has a recorded last-loaded mtime at least the on-disk mtime. -/
theorem C2_disk_cache_state_machine
    (fs : FsState) (dA dB : DiskCache) (f : String) (t now : Int) :
    (∀ (d : DiskCache) (fs0 : FsState) (now0 : Int), fs0 f = none →
      DiskCache.StateOf fs0 d f now0 = .Absent) ∧
    ((now - t < dA.Timeout → DiskCache.StateOf (DiskCache.Save fs dA f t).1
        (DiskCache.Save fs dA f t).2 f now = .Good) ∧
      (now - t < dB.Timeout →
        (dB.lastLoaded f = none ∨ ∃ l, dB.lastLoaded f = some l ∧ l < t) →
        DiskCache.StateOf (DiskCache.Save fs dA f t).1 dB f now = .ShouldReload) ∧
      (∀ dB2, DiskCache.Load (DiskCache.Save fs dA f t).1 dB f = some dB2 →
        now - t < dB.Timeout →
        DiskCache.StateOf (DiskCache.Save fs dA f t).1 dB2 f now = .Good) ∧
      (∀ d : DiskCache, d.Timeout < now - t →
        DiskCache.StateOf (DiskCache.Save fs dA f t).1 d f now = .Expired)) ∧
    (∀ (fs0 : FsState) (d : DiskCache) (now0 : Int),
      DiskCache.StateOf fs0 d f now0 = .Good ↔
        ∃ m, fs0 f = some m ∧ now0 - m < d.Timeout ∧
          ∃ l, d.lastLoaded f = some l ∧ m ≤ l) := by
  refine ⟨?_, ⟨?_, ?_, ?_, ?_⟩, ?_⟩
  · intro d fs0 now0 h
    simp [DiskCache.StateOf, h]
  · intro h
    rw [stateOf_good_iff]
    exact ⟨t, updateAt_same fs f t, by show now - t < dA.Timeout; omega, t,
      updateAt_same dA.lastLoaded f t, le_refl t⟩
  · intro h hB
    refine stateOf_shouldReload_of _ _ _ _ t (updateAt_same fs f t) (by omega) ?_
    intro l hl
    rcases hB with hB | ⟨l2, hB, hlt⟩
    · rw [hB] at hl
      exact absurd hl (by simp)
    · rw [hB] at hl
      cases hl
      exact hlt
  · intro dB2 hload h
    simp only [DiskCache.Load, DiskCache.Save, updateAt_same, Option.some.injEq] at hload
    subst hload
    rw [stateOf_good_iff]
    exact ⟨t, updateAt_same fs f t, by show now - t < dB.Timeout; omega, t,
      updateAt_same dB.lastLoaded f t, le_refl t⟩
  · intro d h
    exact stateOf_expired_of _ _ _ _ t (updateAt_same fs f t) (by omega)
  · intro fs0 d now0
    exact stateOf_good_iff fs0 d f now0

/-- Witness for C2 at a concrete scenario: timeout 10, save at instant 0,
queries at instant 5 (fresh) and 11 (expired). -/
theorem C2_witness :
    DiskCache.StateOf (fun _ => none) ⟨10, fun _ => none⟩ ("asn.json") 5 = .Absent ∧
    DiskCache.StateOf
      (DiskCache.Save (fun _ => none) ⟨10, fun _ => none⟩ ("asn.json") 0).1
      (DiskCache.Save (fun _ => none) ⟨10, fun _ => none⟩ ("asn.json") 0).2
      ("asn.json") 5 = .Good ∧
    DiskCache.StateOf
      (DiskCache.Save (fun _ => none) ⟨10, fun _ => none⟩ ("asn.json") 0).1
      (⟨10, fun _ => none⟩ : DiskCache) ("asn.json") 5 = .ShouldReload ∧
    DiskCache.StateOf
      (DiskCache.Save (fun _ => none) ⟨10, fun _ => none⟩ ("asn.json") 0).1
      (⟨10, fun _ => none⟩ : DiskCache) ("asn.json") 11 = .Expired := by
  have h := C2_disk_cache_state_machine (fun _ => none) ⟨10, fun _ => none⟩
    ⟨10, fun _ => none⟩ ("asn.json") 0 5
  have h2 := C2_disk_cache_state_machine (fun _ => none) ⟨10, fun _ => none⟩
    ⟨10, fun _ => none⟩ ("asn.json") 0 11
  exact ⟨h.1 ⟨10, fun _ => none⟩ (fun _ => none) 5 rfl,
    h.2.1.1 (by decide),
    h.2.1.2.1 (by decide) (Or.inl rfl),
    h2.2.1.2.2.2 ⟨10, fun _ => none⟩ (by decide)⟩

/-! ## Theorems: bootstrap client control flow (claims C8, C9, C10) -/

/-- C8: contrary to the claim, a Client.Lookup call whose cache state for the
filename of the registry type is Expired performs no network download when an
in-memory Typed Registry instance already exists: the query is answered from
the stale instance and the registries are unchanged. (The claim, backed by the
package documentation, says an Expired entry must be re-fetched from the
network before answering.) -/
theorem C8_lookup_expired_answers_stale {R : Type} (env : Env R) (regs : Registries R)
    (t : RegistryType) (lk : R → Except String Result) (r : R)
    (hstate : env.cacheState t.Filename = .Expired) (hreg : regs t = some r) :
    clientLookup env regs t lk = (regs, false, lk r) := by
  simp [clientLookup, hstate, hreg]

/-- Witness for C8: a concrete client with an in-memory ASN registry instance
and an Expired asn.json cache entry answers from the stale instance without
downloading. -/
theorem C8_witness :
    clientLookup
      (⟨fun _ => .Expired, fun _ => .error (""), fun _ _ => .error (""),
        fun _ => .error (""), fun _ => none⟩ : Env Unit)
      (fun _ => some ()) .ASN (fun _ => .ok ⟨"", "", []⟩) =
      (fun _ => some (), false, .ok ⟨"", "", []⟩) :=
  C8_lookup_expired_answers_stale
    (⟨fun _ => .Expired, fun _ => .error (""), fun _ _ => .error (""),
      fun _ => .error (""), fun _ => none⟩ : Env Unit)
    (fun _ => some ()) .ASN (fun _ => .ok ⟨"", "", []⟩) () rfl rfl

/-- C9: when the cache state is ShouldReload and the reload from cache fails
(load error or parse error of the cached bytes, summarised by the reported
message e), Client.Lookup falls back to a network download: the outcome is
exactly the download-path outcome and does not depend on the reload error,
which is never surfaced to the caller. -/
theorem C9_reload_failure_falls_back {R : Type} (env : Env R) (regs : Registries R)
    (t : RegistryType) (lk : R → Except String Result) (e : String)
    (hstate : env.cacheState t.Filename = .ShouldReload)
    (hfail : (clientReloadFromCache env regs t).2 = some e) :
    clientLookup env regs t lk =
      (match clientDownload env regs t with
       | (regs2, .error d) => (regs2, true, .error d)
       | (regs2, .ok r) => (regs2, true, lk r)) := by
  have hsame : clientReloadFromCache env regs t = (regs, some e) := by
    unfold clientReloadFromCache at hfail ⊢
    rcases hc : env.cacheLoad t.Filename with e2 | bytes
    · simp only [hc] at hfail ⊢
      simp only [Option.some.injEq] at hfail
      rw [hfail]
    · simp only [hc] at hfail ⊢
      rcases hn : env.newRegistry t bytes with e2 | r
      · simp only [hn] at hfail ⊢
        simp only [Option.some.injEq] at hfail
        rw [hfail]
      · simp only [hn] at hfail
        exact absurd hfail (by simp)
  unfold clientLookup
  rw [hstate]
  simp only [if_pos rfl, hsame]
  rcases hd : clientDownload env regs t with ⟨regs2, er | r⟩ <;> simp [hd]

/-- Witness for C9: a concrete client whose cache load fails with message x
downloads instead, surfacing only the download result. -/
theorem C9_witness :
    clientLookup
      (⟨fun _ => .ShouldReload, fun _ => .error ("x"), fun _ _ => .error ("y"),
        fun _ => .ok [], fun _ => none⟩ : Env Unit)
      (fun _ => some ()) .DNS (fun _ => .ok ⟨"", "", []⟩) =
      (fun _ => some (), true, .error ("y")) := by
  have h := C9_reload_failure_falls_back
    (⟨fun _ => .ShouldReload, fun _ => .error ("x"), fun _ _ => .error ("y"),
      fun _ => .ok [], fun _ => none⟩ : Env Unit)
    (fun _ => some ()) .DNS (fun _ => .ok ⟨"", "", []⟩) ("x") rfl rfl
  rw [h]
  rfl

/-- C10: each of the five accessors performs no network fetch and consults only
the cache state of the ServiceProvider filename; every in-memory registry slot
other than the ServiceProvider slot is left unchanged. This is stated as a
frame property: the accessor result is invariant under any change of the
environment that preserves the cache state, the cache load and the registry
constructor at the ServiceProvider filename and type (in particular the HTTP
transport and all other filenames, including the accessor's own type's
filename, are irrelevant), and the registries map is unchanged outside the
ServiceProvider slot. -/
theorem C10_accessors_frame {R : Type} (env env2 : Env R) (regs : Registries R)
    (t : RegistryType)
    (hcs : env2.cacheState (RegistryType.Filename .ServiceProvider) =
      env.cacheState (RegistryType.Filename .ServiceProvider))
    (hld : env2.cacheLoad (RegistryType.Filename .ServiceProvider) =
      env.cacheLoad (RegistryType.Filename .ServiceProvider))
    (hnr : env2.newRegistry .ServiceProvider = env.newRegistry .ServiceProvider) :
    (∀ t2, ¬ t2 = RegistryType.ServiceProvider →
      (clientAccessor env regs t).1 t2 = regs t2) ∧
    clientAccessor env2 regs t = clientAccessor env regs t := by
  constructor
  · intro t2 ht2
    unfold clientAccessor clientFreshenFromCache clientReloadFromCache
    by_cases hs : env.cacheState (RegistryType.Filename .ServiceProvider) = .ShouldReload
    · rw [if_pos hs]
      rcases hc : env.cacheLoad (RegistryType.Filename .ServiceProvider) with e | bytes
      · simp only [hc]
      · simp only [hc]
        rcases hn : env.newRegistry .ServiceProvider bytes with e | r
        · simp only [hn]
        · simp only [hn, updateReg]
          rw [if_neg ht2]
    · rw [if_neg hs]
  · unfold clientAccessor clientFreshenFromCache clientReloadFromCache
    rw [hcs, hld, hnr]

/-- Witness for C10: two concrete environments differing in HTTP transport and
in the cache state of asn.json, but agreeing on the ServiceProvider filename,
give the same accessor outcome, and the ASN slot is untouched. -/
theorem C10_witness :
    ((clientAccessor
        (⟨fun _ => .Good, fun _ => .error (""), fun _ _ => .error (""),
          fun _ => .error (""), fun _ => none⟩ : Env Unit)
        (fun _ => some ()) .ASN).1 .ASN = some ()) ∧
    clientAccessor
      (⟨fun f => if f = ("asn.json") then .Expired else .Good, fun _ => .error (""),
        fun _ _ => .error (""), fun _ => .ok [], fun _ => some ("")⟩ : Env Unit)
      (fun _ => some ()) .ASN =
    clientAccessor
      (⟨fun _ => .Good, fun _ => .error (""), fun _ _ => .error (""),
        fun _ => .error (""), fun _ => none⟩ : Env Unit)
      (fun _ => some ()) .ASN := by
  have h := C10_accessors_frame
    (⟨fun _ => .Good, fun _ => .error (""), fun _ _ => .error (""),
      fun _ => .error (""), fun _ => none⟩ : Env Unit)
    (⟨fun f => if f = ("asn.json") then .Expired else .Good, fun _ => .error (""),
      fun _ _ => .error (""), fun _ => .ok [], fun _ => some ("")⟩ : Env Unit)
    (fun _ => some ()) .ASN (by decide) rfl rfl
  exact ⟨h.1 .ASN (by decide), h.2⟩

/-! ## Theorems: service provider registry (claim C6) -/

theorem findIdx?_none_of_all {α : Type} (p : α → Bool) :
    ∀ (l : List α) (i : Nat), (∀ c ∈ l, p c = false) → List.findIdx? p l i = none := by
  intro l
  induction l with
  | nil => intro i h; exact List.findIdx?_nil
  | cons a l ih =>
    intro i h
    rw [List.findIdx?_cons, if_neg (by rw [h a (by simp)]; simp)]
    exact ih (i + 1) (fun c hc => h c (by simp [hc]))

theorem findIdx?_append_sep {α : Type} (p : α → Bool) :
    ∀ (pre : List α) (x : α) (rest : List α) (i : Nat),
      (∀ c ∈ pre, p c = false) → p x = true →
      List.findIdx? p (pre ++ x :: rest) i = some (i + pre.length) := by
  intro pre
  induction pre with
  | nil =>
    intro x rest i h hx
    rw [List.nil_append, List.findIdx?_cons, if_pos hx]
    simp
  | cons a pre ih =>
    intro x rest i h hx
    rw [List.cons_append, List.findIdx?_cons, if_neg (by rw [h a (by simp)]; simp)]
    rw [ih x rest (i + 1) (fun c hc => h c (by simp [hc])) hx]
    simp
    omega

theorem drop_append_sep {α : Type} (pre : List α) (x : α) (rest : List α) :
    (pre ++ x :: rest).drop (pre.length + 1) = rest := by
  have h : pre ++ x :: rest = (pre ++ [x]) ++ rest := by simp
  have h2 : pre.length + 1 = (pre ++ [x]).length := by simp
  rw [h, h2, List.drop_left]

/-- A concrete service provider registry with the single registered tag VRSN,
used to exhibit the C6 counterexample. -/
def c6Reg : ServiceProviderRegistry :=
  ⟨[(("VRSN"), [("https://rdap.verisignlabs.com/rdap/v1")])]⟩

/-- C6 counterexample: in the input a~b~VRSN the suffix after the last '~' is
the registered tag VRSN, yet Lookup returns the empty entry and no URLs,
because the code splits at the first '~' (strings.IndexByte) and looks up the
unregistered tag b~VRSN. The claim, which says only the suffix after the last
separator determines the match, is false on this input. -/
theorem C6_counterexample :
    ServiceProviderRegistry.Lookup c6Reg ("a~b~VRSN") = .ok ⟨("a~b~VRSN"), "", []⟩ ∧
    lookupMap c6Reg.Services ("VRSN") =
      some [("https://rdap.verisignlabs.com/rdap/v1")] :=
  ⟨rfl, rfl⟩

/-- C6 (amended): only the suffix after the FIRST '~' separator determines the
match: writing the input as pre ++ '~' :: tag with no '~' in pre, a registered
tag gives the tag and its URLs, while an input with no '~', an input whose
first '~' is final (empty tag), and an unregistered tag all yield an Answer
with empty entry and empty urls; Lookup never returns an error and always
echoes the input as the Query. -/
theorem C6_service_provider_lookup (s : ServiceProviderRegistry) (input : String) :
    (∃ r, s.Lookup input = .ok r ∧ r.Query = input) ∧
    ((∀ c ∈ input.data, ¬ c = '~') → s.Lookup input = .ok ⟨input, "", []⟩) ∧
    (∀ pre tag : List Char, input.data = pre ++ ('~') :: tag → (∀ c ∈ pre, ¬ c = '~') →
      ((tag = [] → s.Lookup input = .ok ⟨input, "", []⟩) ∧
       (¬ tag = [] → lookupMap s.Services (String.mk tag) = none →
          s.Lookup input = .ok ⟨input, "", []⟩) ∧
       (∀ us, ¬ tag = [] → lookupMap s.Services (String.mk tag) = some us →
          s.Lookup input = .ok ⟨input, String.mk tag, us⟩))) := by
  refine ⟨?_, ?_, ?_⟩
  · unfold ServiceProviderRegistry.Lookup
    rcases hf : List.findIdx? (fun c => c = '~') input.data with _ | off
    · exact ⟨⟨input, "", []⟩, rfl, rfl⟩
    · simp only [hf]
      by_cases hoff : off = input.data.length - 1
      · rw [if_pos hoff]
        exact ⟨⟨input, "", []⟩, rfl, rfl⟩
      · rw [if_neg hoff]
        rcases hl : lookupMap s.Services (String.mk (input.data.drop (off + 1))) with _ | us
        · simp only [hl]
          exact ⟨⟨input, "", []⟩, rfl, rfl⟩
        · simp only [hl]
          exact ⟨⟨input, String.mk (input.data.drop (off + 1)), us⟩, rfl, rfl⟩
  · intro h
    unfold ServiceProviderRegistry.Lookup
    rw [findIdx?_none_of_all _ input.data 0 (fun c hc => decide_eq_false (h c hc))]
  · intro pre tag hdec hpre
    have hf : List.findIdx? (fun c => c = '~') input.data = some pre.length := by
      rw [hdec]
      have h2 := findIdx?_append_sep (fun c : Char => c = '~') pre ('~') tag 0
        (fun c hc => decide_eq_false (hpre c hc)) (by simp)
      rw [h2]
      simp
    have hlen : input.data.length = pre.length + tag.length + 1 := by
      rw [hdec]
      simp
      omega
    refine ⟨?_, ?_, ?_⟩
    · intro htag
      subst htag
      unfold ServiceProviderRegistry.Lookup
      simp only [hf]
      rw [if_pos (by simp only [List.length_nil] at hlen; omega)]
    · intro htag hlk
      have htlen : 0 < tag.length := List.length_pos.mpr htag
      unfold ServiceProviderRegistry.Lookup
      simp only [hf]
      rw [if_neg (by omega)]
      have hdrop : input.data.drop (pre.length + 1) = tag := by
        rw [hdec]
        exact drop_append_sep pre ('~') tag
      simp only [hdrop, hlk]
    · intro us htag hlk
      have htlen : 0 < tag.length := List.length_pos.mpr htag
      unfold ServiceProviderRegistry.Lookup
      simp only [hf]
      rw [if_neg (by omega)]
      have hdrop : input.data.drop (pre.length + 1) = tag := by
        rw [hdec]
        exact drop_append_sep pre ('~') tag
      simp only [hdrop, hlk]

/-- Witness for C6 at concrete inputs: 12345~VRSN matches the registered tag,
X~VRSN~ does not (its first separator yields the unregistered tag VRSN~). -/
theorem C6_witness :
    ServiceProviderRegistry.Lookup c6Reg ("12345~VRSN") =
      .ok ⟨("12345~VRSN"), ("VRSN"), [("https://rdap.verisignlabs.com/rdap/v1")]⟩ ∧
    ServiceProviderRegistry.Lookup c6Reg ("~") = .ok ⟨("~"), "", []⟩ := by
  have h1 := (C6_service_provider_lookup c6Reg ("12345~VRSN")).2.2
    ['1', '2', '3', '4', '5'] ['V', 'R', 'S', 'N'] (by decide) (by decide)
  have h2 := (C6_service_provider_lookup c6Reg ("~")).2.2 [] [] (by decide) (by decide)
  exact ⟨h1.2.2 [("https://rdap.verisignlabs.com/rdap/v1")] (by decide) (by decide),
    h2.1 rfl⟩

/-! ## Theorems: Answer query field (claim C7) -/

/-- A concrete ASN registry with the single range 64-66, used to exhibit the
C7 divergence. -/
def c7Reg : ASNRegistry :=
  NewASNRegistry [(("64-66"), [("https://example.net/rdap/")])]

/-- C7: the claim fails for the ASN registry. Looking up AS65 succeeds and
matches the range AS64-AS66, but the Query field of the Answer is the string
containing the single Unicode character with code point 65 (capital A, from
the Go conversion string(asn) in asn_registry.go line 105), not the
canonicalised input 65. The spec and the doc comment on the Result struct
(client.go) both promise the canonicalised input with the AS prefix
removed. -/
theorem C7_asn_query_field_bug :
    ASNRegistry.Lookup c7Reg ("AS65") =
      .ok ⟨("A"), ("AS64-AS66"), [("https://example.net/rdap/")]⟩ ∧
    ¬ (("A" : String) = ("65")) :=
  ⟨rfl, by decide⟩

/-! ## Theorems: registry file parser (claim C5) -/

/-- A services entry binds the key k when k is among its keys and at least one
of its URLs parses; used to state which entry determines each binding. -/
def entryHits (urlOk : String → Bool) (k : String) (s : List (List String)) : Bool :=
  decide (k ∈ s.getD 0 []) && decide (¬ (s.getD 1 []).filter urlOk = [])

theorem getLast?_cons_of_ne {α : Type} (a : α) (l : List α) (h : ¬ l = []) :
    (a :: l).getLast? = l.getLast? := by
  rcases l with _ | ⟨b, l⟩
  · exact absurd rfl h
  · exact List.getLast?_cons_cons

theorem foldl_updEntries (urls : List String) :
    ∀ (keys : List String) (acc : String → Option (List String)) (k : String),
      (keys.foldl (fun a k2 => updEntries a k2 urls) acc) k =
        if k ∈ keys then some urls else acc k := by
  intro keys
  induction keys with
  | nil => intro acc k; simp
  | cons k0 ks ih =>
    intro acc k
    rw [List.foldl_cons, ih]
    by_cases hk : k ∈ ks
    · rw [if_pos hk, if_pos (by simp [hk])]
    · rw [if_neg hk]
      by_cases hk0 : k = k0
      · subst hk0
        rw [if_pos (by simp)]
        simp [updEntries]
      · rw [if_neg (by simp [hk0, hk])]
        simp [updEntries, hk0]

theorem buildEntries_ok (urlOk : String → Bool) :
    ∀ (services : List (List (List String))) (acc : String → Option (List String)),
      (∀ s ∈ services, s.length = 2) →
      ∃ m, buildEntries urlOk services acc = .ok m ∧
        ∀ k, m k =
          match (services.filter (entryHits urlOk k)).getLast? with
          | some s => some ((s.getD 1 []).filter urlOk)
          | none => acc k := by
  intro services
  induction services with
  | nil =>
    intro acc h
    exact ⟨acc, rfl, fun k => by simp⟩
  | cons s rest ih =>
    intro acc h
    have hs2 : s.length = 2 := h s (by simp)
    have hrest : ∀ s2 ∈ rest, s2.length = 2 := fun s2 hs => h s2 (by simp [hs])
    unfold buildEntries
    rw [if_neg (by omega)]
    rcases ih (if 0 < ((s.getD 1 []).filter urlOk).length then
        (s.getD 0 []).foldl (fun a k => updEntries a k ((s.getD 1 []).filter urlOk)) acc
      else acc) hrest with ⟨m, hm, hchar⟩
    refine ⟨m, hm, ?_⟩
    intro k
    rw [hchar k, List.filter_cons]
    rcases hrf : (rest.filter (entryHits urlOk k)).getLast? with _ | s2
    · simp only [hrf]
      have hrfe : rest.filter (entryHits urlOk k) = [] := by
        rcases hx : rest.filter (entryHits urlOk k) with _ | ⟨a, l⟩
        · rfl
        · rw [hx] at hrf
          exact absurd hrf (by simp [List.getLast?_eq_getLast])
      by_cases hhit : entryHits urlOk k s = true
      · rw [if_pos hhit, hrfe]
        simp only [List.getLast?_singleton]
        have hh := hhit
        unfold entryHits at hh
        simp only [Bool.and_eq_true, decide_eq_true_eq] at hh
        obtain ⟨hmem, hne⟩ := hh
        rw [if_pos (List.length_pos.mpr hne)]
        rw [foldl_updEntries, if_pos hmem]
      · rw [if_neg hhit, hrfe]
        simp only [List.getLast?_nil]
        by_cases hurls : 0 < ((s.getD 1 []).filter urlOk).length
        · rw [if_pos hurls, foldl_updEntries]
          have hne2 : ¬ (s.getD 1 []).filter urlOk = [] := by
            intro he
            rw [he] at hurls
            simp at hurls
          have hnm : ¬ k ∈ s.getD 0 [] := by
            intro hmem
            apply hhit
            unfold entryHits
            simp only [Bool.and_eq_true, decide_eq_true_eq]
            exact ⟨hmem, hne2⟩
          rw [if_neg hnm]
        · rw [if_neg hurls]
    · simp only [hrf]
      have hne : ¬ rest.filter (entryHits urlOk k) = [] := by
        intro hx
        rw [hx] at hrf
        exact absurd hrf (by simp)
      by_cases hhit : entryHits urlOk k s = true
      · rw [if_pos hhit, getLast?_cons_of_ne _ _ hne, hrf]
      · rw [if_neg hhit, hrf]

theorem buildEntries_nonempty (urlOk : String → Bool) :
    ∀ (services : List (List (List String))) (acc : String → Option (List String))
      (m : String → Option (List String)),
      (∀ k v, acc k = some v → ¬ v = []) →
      buildEntries urlOk services acc = .ok m → ∀ k v, m k = some v → ¬ v = [] := by
  intro services
  induction services with
  | nil =>
    intro acc m hacc hok
    unfold buildEntries at hok
    simp only [Except.ok.injEq] at hok
    subst hok
    exact hacc
  | cons s rest ih =>
    intro acc m hacc hok
    unfold buildEntries at hok
    by_cases hs2 : s.length ≠ 2
    · rw [if_pos hs2] at hok
      exact absurd hok (by simp)
    · rw [if_neg hs2] at hok
      refine ih _ m ?_ hok
      intro k v hv
      by_cases hurls : 0 < ((s.getD 1 []).filter urlOk).length
      · rw [if_pos hurls, foldl_updEntries] at hv
        by_cases hmem : k ∈ s.getD 0 []
        · rw [if_pos hmem] at hv
          cases hv
          intro he
          rw [he] at hurls
          simp at hurls
        · rw [if_neg hmem] at hv
          exact hacc k v hv
      · rw [if_neg hurls] at hv
        exact hacc k v hv

theorem buildEntries_err (urlOk : String → Bool) :
    ∀ (services : List (List (List String))) (acc : String → Option (List String)),
      (∃ s ∈ services, ¬ s.length = 2) →
      ∃ e, buildEntries urlOk services acc = .error e := by
  intro services
  induction services with
  | nil =>
    intro acc h
    rcases h with ⟨s, hs, _⟩
    exact absurd hs (by simp)
  | cons s rest ih =>
    intro acc h
    unfold buildEntries
    by_cases hs2 : s.length ≠ 2
    · rw [if_pos hs2]
      exact ⟨_, rfl⟩
    · rw [if_neg hs2]
      apply ih
      rcases h with ⟨s2, hs2m, hs2l⟩
      rcases List.mem_cons.mp hs2m with he | hm
      · subst he
        exact absurd hs2l (by simpa using hs2)
      · exact ⟨s2, hm, hs2l⟩

/-- C5: for every decoded registry document whose services entries are all
2-element arrays, parse succeeds, and each key k maps to the filtered
(successfully parsed, order preserved) URL list of the LAST services entry that
both lists k and retains at least one URL; keys bound by no such entry are
absent. Every key present in the result maps to a non-empty URL list. A
services entry that is not a 2-element array makes parse fail with a
structural error, and an empty services array succeeds with zero entries. -/
theorem C5_registry_file_parse (urlOk : String → Bool) (doc : ServicesDoc) :
    ((∀ s ∈ doc.Services, s.length = 2) →
      ∃ rf, parse urlOk doc = .ok rf ∧
        ∀ k, rf.Entries k =
          match (doc.Services.filter (entryHits urlOk k)).getLast? with
          | some s => some ((s.getD 1 []).filter urlOk)
          | none => none) ∧
    (∀ rf, parse urlOk doc = .ok rf → ∀ k v, rf.Entries k = some v → ¬ v = []) ∧
    ((∃ s ∈ doc.Services, ¬ s.length = 2) → ∃ e, parse urlOk doc = .error e) ∧
    (doc.Services = [] → ∃ rf, parse urlOk doc = .ok rf ∧ ∀ k, rf.Entries k = none) := by
  refine ⟨?_, ?_, ?_, ?_⟩
  · intro h
    rcases buildEntries_ok urlOk doc.Services (fun _ => none) h with ⟨m, hm, hchar⟩
    refine ⟨⟨doc.Description, doc.Publication, doc.Version, m⟩, ?_, ?_⟩
    · unfold parse
      rw [hm]
    · intro k
      exact hchar k
  · intro rf hok k v hv
    unfold parse at hok
    rcases hb : buildEntries urlOk doc.Services (fun _ => none) with e | m
    · rw [hb] at hok
      exact absurd hok (by simp)
    · rw [hb] at hok
      simp only [Except.ok.injEq] at hok
      subst hok
      exact buildEntries_nonempty urlOk doc.Services _ m (by simp) hb k v hv
  · intro h
    rcases buildEntries_err urlOk doc.Services (fun _ => none) h with ⟨e, he⟩
    refine ⟨e, ?_⟩
    unfold parse
    rw [he]
  · intro h
    rcases buildEntries_ok urlOk doc.Services (fun _ => none)
      (by rw [h]; intro s hs; exact absurd hs (by simp)) with ⟨m, hm, hchar⟩
    refine ⟨⟨doc.Description, doc.Publication, doc.Version, m⟩, ?_, ?_⟩
    · unfold parse
      rw [hm]
    · intro k
      show m k = none
      rw [hchar k, h]
      simp

/-- Witness for C5 at a concrete document: two entries sharing the key com
(the later entry wins), one unparsable URL dropped, and one entry losing all
its URLs (contributing no key). -/
theorem C5_witness :
    ∃ rf, parse (fun u => ¬ u = ("bad")) ⟨("d"), ("p"), ("v"),
        [[[("com"), ("net")], [("http://a"), ("bad")]],
         [[("com")], [("http://b")]],
         [[("x")], [("bad")]]]⟩ = .ok rf ∧
      ∀ k, rf.Entries k =
        match ([[[("com"), ("net")], [("http://a"), ("bad")]],
               [[("com")], [("http://b")]],
               [[("x")], [("bad")]]].filter
                 (entryHits (fun u => ¬ u = ("bad")) k)).getLast? with
        | some s => some ((s.getD 1 []).filter (fun u => ¬ u = ("bad")))
        | none => none :=
  (C5_registry_file_parse (fun u => ¬ u = ("bad")) ⟨("d"), ("p"), ("v"),
    [[[("com"), ("net")], [("http://a"), ("bad")]],
     [[("com")], [("http://b")]],
     [[("x")], [("bad")]]]⟩).1 (by decide)

/-! ## Theorems: DNS registry lookup (claim C4) -/

/-- The names probed by the DNS Lookup loop starting from canon: the name
itself, the empty string (root zone), and every suffix that starts right after
a dot (that is, every suffix obtainable by stripping whole leading labels). -/
def probeOf (canon s : List Char) : Prop :=
  s = canon ∨ s = [] ∨ ∃ pre, canon = pre ++ ('.') :: s

theorem probeOf_length {canon s : List Char} (h : probeOf canon s) :
    s.length ≤ canon.length := by
  rcases h with h | h | ⟨pre, h⟩
  · rw [h]
  · rw [h]; simp
  · rw [h]; simp; omega

theorem dropThroughDot_cons_dot (l : List Char) : dropThroughDot (('.') :: l) = l := by
  unfold dropThroughDot
  rw [if_pos (by simp)]
  rw [List.dropWhile_cons]
  rw [if_neg (by simp)]
  rfl

theorem dropThroughDot_cons_ne (c : Char) (l : List Char) (hc : ¬ c = '.') :
    dropThroughDot (c :: l) = dropThroughDot l := by
  unfold dropThroughDot
  by_cases hd : l.any (fun x => x = '.') = true
  · rw [if_pos (by simp [List.any_cons, hd]), if_pos hd]
    rw [List.dropWhile_cons]
    rw [if_pos (by simp [hc])]
  · rw [if_neg (by simp [List.any_cons]; exact ⟨hc, by simpa using hd⟩), if_neg hd]

theorem dropThroughDot_lt (l : List Char) (h : ¬ l = []) :
    (dropThroughDot l).length < l.length := by
  have hlp : 0 < l.length := List.length_pos.mpr h
  unfold dropThroughDot
  by_cases hd : l.any (fun c => c = '.') = true
  · rw [if_pos hd]
    have h1 : (l.dropWhile (fun c => ¬ c = '.')).length ≤ l.length :=
      List.Sublist.length_le (List.dropWhile_sublist _)
    have h2 : ((l.dropWhile (fun c => ¬ c = '.')).tail).length =
        (l.dropWhile (fun c => ¬ c = '.')).length - 1 := List.length_tail _
    omega
  · rw [if_neg hd]
    simpa using hlp

theorem dot_split (l : List Char) :
    l.any (fun c => c = '.') = true → ∃ pre, l = pre ++ ('.') :: dropThroughDot l := by
  induction l with
  | nil => intro h; simp at h
  | cons c l ih =>
    intro h
    by_cases hc : c = '.'
    · subst hc
      refine ⟨[], ?_⟩
      rw [dropThroughDot_cons_dot]
      simp
    · have hl : l.any (fun x => x = '.') = true := by
        rw [List.any_cons] at h
        rcases Bool.or_eq_true_iff.mp h with h1 | h1
        · exact absurd (by simpa using h1) hc
        · exact h1
      rcases ih hl with ⟨pre, hpre⟩
      refine ⟨c :: pre, ?_⟩
      rw [dropThroughDot_cons_ne c l hc, List.cons_append, ← hpre]

theorem probe_after_drop : ∀ (pre s : List Char),
    s = dropThroughDot (pre ++ ('.') :: s) ∨
    ∃ pre2, dropThroughDot (pre ++ ('.') :: s) = pre2 ++ ('.') :: s := by
  intro pre
  induction pre with
  | nil =>
    intro s
    left
    rw [List.nil_append, dropThroughDot_cons_dot]
  | cons c pre ih =>
    intro s
    by_cases hc : c = '.'
    · subst hc
      right
      exact ⟨pre, by rw [List.cons_append, dropThroughDot_cons_dot]⟩
    · rw [List.cons_append, dropThroughDot_cons_ne c _ hc]
      exact ih s

theorem probe_iff (l : List Char) (_hne : ¬ l = []) (s : List Char) :
    probeOf l s ↔ s = l ∨ probeOf (dropThroughDot l) s := by
  constructor
  · intro h
    rcases h with h | h | ⟨pre, hpre⟩
    · exact Or.inl h
    · exact Or.inr (Or.inr (Or.inl h))
    · right
      rw [hpre]
      rcases probe_after_drop pre s with h2 | ⟨pre2, h2⟩
      · exact Or.inl h2
      · exact Or.inr (Or.inr ⟨pre2, h2⟩)
  · intro h
    rcases h with h | h | h | ⟨pre2, hd2⟩
    · exact Or.inl h
    · by_cases hd : l.any (fun c => c = '.') = true
      · rcases dot_split l hd with ⟨pre, hpre⟩
        rw [h]
        exact Or.inr (Or.inr ⟨pre, hpre⟩)
      · have hdd : dropThroughDot l = [] := by
          unfold dropThroughDot
          rw [if_neg hd]
        rw [h, hdd]
        exact Or.inr (Or.inl rfl)
    · exact Or.inr (Or.inl h)
    · by_cases hd : l.any (fun c => c = '.') = true
      · rcases dot_split l hd with ⟨pre, hpre⟩
        refine Or.inr (Or.inr ⟨pre ++ ('.') :: pre2, ?_⟩)
        rw [hpre, hd2]
        simp
      · have hdd : dropThroughDot l = [] := by
          unfold dropThroughDot
          rw [if_neg hd]
        rw [hdd] at hd2
        exact absurd hd2.symm (by simp)

theorem dnsLoopAux_spec (m : List (String × List String)) :
    ∀ (gas : Nat) (fqdn : List Char), fqdn.length < gas →
      (∃ s, probeOf fqdn s ∧ lookupMap m (String.mk s) = some (dnsLoopAux m gas fqdn).2 ∧
        (dnsLoopAux m gas fqdn).1 = String.mk s ∧
        (∀ s2, probeOf fqdn s2 → s.length < s2.length →
          lookupMap m (String.mk s2) = none)) ∨
      ((∀ s, probeOf fqdn s → lookupMap m (String.mk s) = none) ∧
        dnsLoopAux m gas fqdn = ("", [])) := by
  intro gas
  induction gas with
  | zero => intro fqdn h; omega
  | succ gas ih =>
    intro fqdn hlen
    rcases hlk : lookupMap m (String.mk fqdn) with _ | urls
    · by_cases hf : fqdn = []
      · subst hf
        right
        constructor
        · intro s hs
          have hs0 : s = [] := by
            rcases hs with h1 | h1 | ⟨pre, h1⟩
            · exact h1
            · exact h1
            · exact absurd h1 (by simp)
          rw [hs0]
          exact hlk
        · show dnsLoopAux m (gas + 1) [] = ("", [])
          conv_lhs => rw [dnsLoopAux]
          simp only [hlk]
          rw [if_pos trivial]
      · have hstep : dnsLoopAux m (gas + 1) fqdn = dnsLoopAux m gas (dropThroughDot fqdn) := by
          conv_lhs => rw [dnsLoopAux]
          simp only [hlk]
          rw [if_neg hf]
        have ihd := ih (dropThroughDot fqdn) (by have := dropThroughDot_lt fqdn hf; omega)
        rcases ihd with ⟨s, hp, hlks, hfst, hmax⟩ | ⟨hnone, heq⟩
        · left
          refine ⟨s, (probe_iff fqdn hf s).mpr (Or.inr hp),
            by rw [hstep]; exact hlks, by rw [hstep]; exact hfst, ?_⟩
          intro s2 hp2 hlen2
          rcases (probe_iff fqdn hf s2).mp hp2 with he | hp2d
          · rw [he]
            exact hlk
          · exact hmax s2 hp2d hlen2
        · right
          refine ⟨?_, by rw [hstep]; exact heq⟩
          intro s hs
          rcases (probe_iff fqdn hf s).mp hs with he | hsd
          · rw [he]
            exact hlk
          · exact hnone s hsd
    · left
      have hstep : dnsLoopAux m (gas + 1) fqdn = (String.mk fqdn, urls) := by
        conv_lhs => rw [dnsLoopAux]
        simp only [hlk]
      refine ⟨fqdn, Or.inl rfl, ?_, ?_, ?_⟩
      · rw [hstep]
        exact hlk
      · rw [hstep]
      · intro s2 hp2 hl2
        have := probeOf_length hp2
        omega

/-- C4: DNS Lookup canonicalises its input by stripping one trailing dot and
lowercasing, echoes the canonical form as the Query, and returns the longest
probe (the canonical name, or a suffix starting right after a dot, or the
empty root name) that has an entry in the registry, with that key and its URL
list; when no probe (including the empty string) has an entry the Answer has
empty entry and urls, with no error possible. -/
theorem C4_dns_lookup_suffix_search (d : DNSRegistry) (input : String) :
    (DNSRegistry.Lookup d input).Query = goToLower (goTrimDotSuffix input) ∧
    ((∃ s, probeOf (goToLower (goTrimDotSuffix input)).data s ∧
        lookupMap d.DNS (String.mk s) = some (DNSRegistry.Lookup d input).URLs ∧
        (DNSRegistry.Lookup d input).Entry = String.mk s ∧
        (∀ s2, probeOf (goToLower (goTrimDotSuffix input)).data s2 →
          s.length < s2.length → lookupMap d.DNS (String.mk s2) = none)) ∨
      ((∀ s, probeOf (goToLower (goTrimDotSuffix input)).data s →
          lookupMap d.DNS (String.mk s) = none) ∧
        (DNSRegistry.Lookup d input).Entry = "" ∧
        (DNSRegistry.Lookup d input).URLs = [])) := by
  refine ⟨rfl, ?_⟩
  have hspec := dnsLoopAux_spec d.DNS ((goToLower (goTrimDotSuffix input)).data.length + 1)
    (goToLower (goTrimDotSuffix input)).data (by omega)
  rcases hspec with ⟨s, hp, hlks, hfst, hmax⟩ | ⟨hnone, heq⟩
  · left
    exact ⟨s, hp, hlks, hfst, hmax⟩
  · right
    refine ⟨hnone, ?_, ?_⟩
    · show (dnsLoopAux d.DNS ((goToLower (goTrimDotSuffix input)).data.length + 1)
        (goToLower (goTrimDotSuffix input)).data).1 = ""
      rw [heq]
    · show (dnsLoopAux d.DNS ((goToLower (goTrimDotSuffix input)).data.length + 1)
        (goToLower (goTrimDotSuffix input)).data).2 = []
      rw [heq]

/-! ## Theorems: binary search characterization (shared by claims C3 and C1) -/

theorem ssAux_bounds (f : Nat → Bool) :
    ∀ (gas i j : Nat), i ≤ j → j - i ≤ gas →
      i ≤ ssAux f gas i j ∧ ssAux f gas i j ≤ j := by
  intro gas
  induction gas with
  | zero =>
    intro i j hij hgas
    have hij2 : i = j := by omega
    subst hij2
    exact ⟨le_refl i, le_refl i⟩
  | succ gas ih =>
    intro i j hij hgas
    by_cases hlt : i < j
    · have hstep : ssAux f (gas + 1) i j =
          if f ((i + j) / 2) then ssAux f gas i ((i + j) / 2)
          else ssAux f gas ((i + j) / 2 + 1) j := by
        conv_lhs => rw [ssAux]
        rw [if_pos hlt]
      rw [hstep]
      by_cases hfm : f ((i + j) / 2) = true
      · rw [if_pos hfm]
        have h := ih i ((i + j) / 2) (by omega) (by omega)
        exact ⟨h.1, by omega⟩
      · rw [if_neg hfm]
        have h := ih ((i + j) / 2 + 1) j (by omega) (by omega)
        exact ⟨by omega, h.2⟩
    · have hij2 : i = j := by omega
      subst hij2
      have hstep : ssAux f (gas + 1) i i = i := by
        conv_lhs => rw [ssAux]
        rw [if_neg hlt]
      rw [hstep]
      exact ⟨le_refl i, le_refl i⟩

theorem ssAux_char (f : Nat → Bool) (N : Nat)
    (hm : ∀ a b, a ≤ b → b < N → f a = true → f b = true) :
    ∀ (gas i j : Nat), i ≤ j → j ≤ N → j - i ≤ gas →
      i ≤ ssAux f gas i j ∧ ssAux f gas i j ≤ j ∧
      (∀ k, i ≤ k → k < ssAux f gas i j → f k = false) ∧
      (ssAux f gas i j < j → f (ssAux f gas i j) = true) := by
  intro gas
  induction gas with
  | zero =>
    intro i j hij hjN hgas
    have hij2 : i = j := by omega
    subst hij2
    have hstep : ssAux f 0 i i = i := rfl
    rw [hstep]
    exact ⟨le_refl i, le_refl i, fun k hk1 hk2 => by omega, fun h => by omega⟩
  | succ gas ih =>
    intro i j hij hjN hgas
    by_cases hlt : i < j
    · have hstep : ssAux f (gas + 1) i j =
          if f ((i + j) / 2) then ssAux f gas i ((i + j) / 2)
          else ssAux f gas ((i + j) / 2 + 1) j := by
        conv_lhs => rw [ssAux]
        rw [if_pos hlt]
      have hm1 : i ≤ (i + j) / 2 := by omega
      have hm2 : (i + j) / 2 < j := by omega
      by_cases hfm : f ((i + j) / 2) = true
      · rw [hstep, if_pos hfm]
        obtain ⟨ha, hb, hc, hd⟩ := ih i ((i + j) / 2) hm1 (by omega) (by omega)
        refine ⟨ha, by omega, hc, ?_⟩
        intro hlt2
        by_cases hr : ssAux f gas i ((i + j) / 2) < (i + j) / 2
        · exact hd hr
        · have hre : ssAux f gas i ((i + j) / 2) = (i + j) / 2 := by omega
          rw [hre]
          exact hfm
      · rw [hstep, if_neg hfm]
        obtain ⟨ha, hb, hc, hd⟩ := ih ((i + j) / 2 + 1) j (by omega) hjN (by omega)
        refine ⟨by omega, hb, ?_, hd⟩
        intro k hk1 hk2
        by_cases hkm : (i + j) / 2 + 1 ≤ k
        · exact hc k hkm hk2
        · by_cases hfk : f k = true
          · exact absurd (hm k ((i + j) / 2) (by omega) (by omega) hfk) hfm
          · simpa using hfk
    · have hij2 : i = j := by omega
      subst hij2
      have hstep : ssAux f (gas + 1) i i = i := by
        conv_lhs => rw [ssAux]
        rw [if_neg hlt]
      rw [hstep]
      exact ⟨le_refl i, le_refl i, fun k hk1 hk2 => by omega, fun h => by omega⟩

theorem sortSearch_le (n : Nat) (f : Nat → Bool) : sortSearch n f ≤ n :=
  (ssAux_bounds f n 0 n (by omega) (by omega)).2

/-- The least index of an element satisfying p, used as the specification of
the binary search performed by the registries. -/
def firstIdx {α : Type} (p : α → Bool) : List α → Option Nat
  | [] => none
  | a :: l => if p a then some 0 else (firstIdx p l).map (fun i => i + 1)

theorem firstIdx_some {α : Type} (p : α → Bool) (d : α) :
    ∀ (l : List α) (i : Nat), firstIdx p l = some i →
      i < l.length ∧ p (l.getD i d) = true ∧ ∀ j, j < i → p (l.getD j d) = false := by
  intro l
  induction l with
  | nil => intro i h; exact absurd h (by simp [firstIdx])
  | cons a l ih =>
    intro i h
    unfold firstIdx at h
    by_cases hpa : p a = true
    · rw [if_pos hpa] at h
      simp only [Option.some.injEq] at h
      subst h
      exact ⟨by simp, by simpa using hpa, fun j hj => by omega⟩
    · rw [if_neg hpa] at h
      rcases hf : firstIdx p l with _ | i2
      · rw [hf] at h
        exact absurd h (by simp)
      · rw [hf] at h
        simp only [Option.map_some', Option.some.injEq] at h
        subst h
        obtain ⟨h1, h2, h3⟩ := ih i2 hf
        refine ⟨by simp only [List.length_cons]; omega,
          by rw [List.getD_cons_succ]; exact h2, ?_⟩
        intro j hj
        rcases j with _ | j2
        · simpa using hpa
        · simpa using h3 j2 (by omega)

theorem firstIdx_none {α : Type} (p : α → Bool) (d : α) :
    ∀ (l : List α), firstIdx p l = none →
      ∀ j, j < l.length → p (l.getD j d) = false := by
  intro l
  induction l with
  | nil => intro h j hj; simp at hj
  | cons a l ih =>
    intro h j hj
    unfold firstIdx at h
    by_cases hpa : p a = true
    · rw [if_pos hpa] at h
      exact absurd h (by simp)
    · rw [if_neg hpa] at h
      rcases hf : firstIdx p l with _ | i2
      · rcases j with _ | j2
        · simpa using hpa
        · simpa using ih hf j2 (by simpa using hj)
      · rw [hf] at h
        exact absurd h (by simp)

theorem sortSearch_eq_firstIdx {α : Type} (p : α → Bool) (d : α) (l : List α)
    (f : Nat → Bool) (hfp : ∀ i, i < l.length → f i = p (l.getD i d))
    (hmono : ∀ i j, i ≤ j → j < l.length →
      p (l.getD i d) = true → p (l.getD j d) = true) :
    sortSearch l.length f =
      match firstIdx p l with
      | some i => i
      | none => l.length := by
  have hmf : ∀ a b, a ≤ b → b < l.length → f a = true → f b = true := by
    intro a b hab hb hfa
    rw [hfp b hb]
    rw [hfp a (by omega)] at hfa
    exact hmono a b hab hb hfa
  obtain ⟨h0, h1, h2, h3⟩ := ssAux_char f l.length hmf
    l.length 0 l.length (by omega) (le_refl _) (by omega)
  rcases hf : firstIdx p l with _ | i
  · have hall := firstIdx_none p d l hf
    show ssAux f l.length 0 l.length = l.length
    by_contra hne
    have hlt : ssAux f l.length 0 l.length < l.length := by
      omega
    have h4 := h3 hlt
    rw [hfp _ hlt, hall _ hlt] at h4
    exact absurd h4 (by simp)
  · obtain ⟨hilen, hpi, hbefore⟩ := firstIdx_some p d l i hf
    show ssAux f l.length 0 l.length = i
    by_contra hne
    by_cases hlt : ssAux f l.length 0 l.length < i
    · have h4 := h3 (by omega)
      rw [hfp _ (by omega), hbefore _ hlt] at h4
      exact absurd h4 (by simp)
    · have hgt : i < ssAux f l.length 0 l.length := by omega
      have h4 := h2 i (by omega) hgt
      rw [hfp _ (by omega), hpi] at h4
      exact absurd h4 (by simp)

/-! ## Theorems: ASN registry (claim C3) -/

instance : IsTotal ASNRange (fun x y => x.MinASN ≤ y.MinASN) :=
  ⟨fun a b => Nat.le_total a.MinASN b.MinASN⟩

instance : IsTrans ASNRange (fun x y => x.MinASN ≤ y.MinASN) :=
  ⟨fun _ _ _ h1 h2 => Nat.le_trans h1 h2⟩

theorem parseASNRange_le {s : String} {mn mx : Nat}
    (h : parseASNRange s = some (mn, mx)) : mn ≤ mx := by
  unfold parseASNRange at h
  by_cases h1 : (s.data.splitOn ('-')).length = 1
  · rw [if_pos h1] at h
    rcases hp : parseUint32Chars ((s.data.splitOn ('-')).getD 0 []) with _ | v
    · rw [hp] at h
      exact absurd h (by simp)
    · rw [hp] at h
      simp only [Option.map_some', Option.some.injEq, Prod.mk.injEq] at h
      omega
  · rw [if_neg h1] at h
    by_cases h2 : (s.data.splitOn ('-')).length = 2
    · rw [if_pos h2] at h
      rcases hp : parseUint32Chars ((s.data.splitOn ('-')).getD 0 []) with _ | v1
      · rw [hp] at h
        exact absurd h (by simp)
      · rw [hp] at h
        rcases hq : parseUint32Chars ((s.data.splitOn ('-')).getD 1 []) with _ | v2
        · rw [hq] at h
          exact absurd h (by simp)
        · rw [hq] at h
          simp only [Option.some.injEq] at h
          by_cases hsw : v1 > v2
          · rw [if_pos hsw] at h
            cases h
            omega
          · rw [if_neg hsw] at h
            cases h
            omega
    · rw [if_neg h2] at h
      exact absurd h (by simp)

theorem NewASNRegistry_mem {entries : List (String × List String)} {r : ASNRange}
    (h : r ∈ (NewASNRegistry entries).ASNs) :
    ∃ p ∈ entries, ∃ mm, parseASNRange p.1 = some mm ∧ r = ASNRange.mk mm.1 mm.2 p.2 := by
  unfold NewASNRegistry at h
  have h2 := (List.perm_insertionSort (fun x y : ASNRange => x.MinASN ≤ y.MinASN) _).mem_iff.mp h
  rcases List.mem_filterMap.mp h2 with ⟨p, hp, hpr⟩
  rcases Option.map_eq_some'.mp hpr with ⟨mm, hmm, hre⟩
  exact ⟨p, hp, mm, hmm, hre.symm⟩

theorem NewASNRegistry_minmax (entries : List (String × List String)) :
    ∀ r ∈ (NewASNRegistry entries).ASNs, r.MinASN ≤ r.MaxASN := by
  intro r hr
  rcases NewASNRegistry_mem hr with ⟨p, hp, mm, hmm, hre⟩
  subst hre
  exact parseASNRange_le (by rw [hmm])

theorem NewASNRegistry_sorted (entries : List (String × List String)) :
    List.Pairwise (fun x y : ASNRange => x.MinASN ≤ y.MinASN)
      (NewASNRegistry entries).ASNs :=
  List.sorted_insertionSort (fun x y : ASNRange => x.MinASN ≤ y.MinASN) _

/-- C3 (amended): the query is lowercased, every leading 'a' or 's' character
is stripped (so the AS and as prefixes are accepted, but so are degenerate
prefixes such as sa or aas, which the claim as stated calls malformed), and the
rest must be a decimal uint32, else Lookup reports a parse error. The
constructed registry has min ≤ max in every range (swapped if needed) and is
sorted ascending by MinASN. Unconditionally, if no range contains the query the
Answer has entry empty and no urls. When the MaxASN values are nondecreasing in
the sorted order (in particular for non-overlapping ranges), the binary search
returns the FIRST range whose MaxASN is at least the query, and that range is
accepted exactly when its MinASN is at most the query. -/
theorem C3_asn_registry_lookup (entries : List (String × List String)) (input : String) :
    (∀ r ∈ (NewASNRegistry entries).ASNs, r.MinASN ≤ r.MaxASN) ∧
    List.Pairwise (fun x y : ASNRange => x.MinASN ≤ y.MinASN)
      (NewASNRegistry entries).ASNs ∧
    (parseASN input = none → ∃ e, (NewASNRegistry entries).Lookup input = .error e) ∧
    (∀ q, parseASN input = some q →
      ((∀ r ∈ (NewASNRegistry entries).ASNs, ¬ (r.MinASN ≤ q ∧ q ≤ r.MaxASN)) →
        (NewASNRegistry entries).Lookup input = .ok ⟨goRuneString q, "", []⟩) ∧
      (List.Pairwise (fun x y : ASNRange => x.MaxASN ≤ y.MaxASN)
          (NewASNRegistry entries).ASNs →
        (NewASNRegistry entries).Lookup input = .ok (
          match firstIdx (fun r => decide (q ≤ r.MaxASN)) (NewASNRegistry entries).ASNs with
          | none => ⟨goRuneString q, "", []⟩
          | some i =>
            if ((NewASNRegistry entries).ASNs.getD i dummyRange).MinASN ≤ q then
              ⟨goRuneString q, ((NewASNRegistry entries).ASNs.getD i dummyRange).renderAS,
                ((NewASNRegistry entries).ASNs.getD i dummyRange).URLs⟩
            else ⟨goRuneString q, "", []⟩))) := by
  refine ⟨NewASNRegistry_minmax entries, NewASNRegistry_sorted entries, ?_, ?_⟩
  · intro h
    unfold ASNRegistry.Lookup
    simp only [h]
    exact ⟨_, rfl⟩
  · intro q hq
    constructor
    · intro hnone
      unfold ASNRegistry.Lookup
      simp only [hq]
      rw [if_neg ?hcond]
      case hcond =>
        rintro ⟨hne, hmin, hmax⟩
        have hb := sortSearch_le (NewASNRegistry entries).ASNs.length
          (fun i => decide (q ≤ ((NewASNRegistry entries).ASNs.getD i dummyRange).MaxASN))
        have hlt : sortSearch (NewASNRegistry entries).ASNs.length
            (fun i => decide (q ≤ ((NewASNRegistry entries).ASNs.getD i dummyRange).MaxASN)) <
            (NewASNRegistry entries).ASNs.length := by
          omega
        have hmem : (NewASNRegistry entries).ASNs.getD (sortSearch
            (NewASNRegistry entries).ASNs.length (fun i => decide (q ≤
              ((NewASNRegistry entries).ASNs.getD i dummyRange).MaxASN)))
            dummyRange ∈ (NewASNRegistry entries).ASNs := by
          rw [List.getD_eq_getElem _ _ hlt]
          exact List.getElem_mem hlt
        exact hnone _ hmem ⟨hmin, hmax⟩
    · intro hmono
      unfold ASNRegistry.Lookup
      have hmono2 : ∀ i j, i ≤ j → j < (NewASNRegistry entries).ASNs.length →
          decide (q ≤ ((NewASNRegistry entries).ASNs.getD i dummyRange).MaxASN) = true →
          decide (q ≤ ((NewASNRegistry entries).ASNs.getD j dummyRange).MaxASN) = true := by
        intro i j hij hj hi
        rcases Nat.lt_or_ge i j with hlt | hge
        · have hij2 := List.pairwise_iff_get.mp hmono ⟨i, by omega⟩ ⟨j, hj⟩ hlt
          simp only [decide_eq_true_eq] at hi ⊢
          rw [List.getD_eq_getElem _ _ (by omega : i < (NewASNRegistry entries).ASNs.length)] at hi
          rw [List.getD_eq_getElem _ _ hj]
          simp only [List.get_eq_getElem] at hij2
          omega
        · have hij2 : i = j := by omega
          subst hij2
          exact hi
      have heq := sortSearch_eq_firstIdx (fun r : ASNRange => decide (q ≤ r.MaxASN))
        dummyRange (NewASNRegistry entries).ASNs
        (fun i => decide (q ≤ ((NewASNRegistry entries).ASNs.getD i dummyRange).MaxASN))
        (fun i hi => rfl) hmono2
      simp only [hq]
      rw [heq]
      rcases hf : firstIdx (fun r : ASNRange => decide (q ≤ r.MaxASN))
          (NewASNRegistry entries).ASNs with _ | i
      · simp only [hf]
        rw [if_neg (by rintro ⟨hne, _, _⟩; exact hne rfl)]
      · simp only [hf]
        obtain ⟨hilen, hpi, hbefore⟩ := firstIdx_some _ dummyRange _ i hf
        simp only [decide_eq_true_eq] at hpi
        by_cases hmin : ((NewASNRegistry entries).ASNs.getD i dummyRange).MinASN ≤ q
        · rw [if_pos ⟨by omega, hmin, hpi⟩, if_pos hmin]
        · rw [if_neg (by rintro ⟨_, hmin2, _⟩; exact hmin hmin2), if_neg hmin]

/-- The registry used by the C3 counterexample: overlapping ranges whose max
values are not monotone after the MinASN sort. -/
def c3Entries : List (String × List String) :=
  [(("0-1000"), [("u1")]), (("1-2"), [("u2")]), (("3-4"), [("u3")])]

/-- C3 counterexample: the input sa500 is not an AS number with an optional
AS/as prefix, so by the claim Lookup should report a parse error; the code
parses it as 500 (TrimLeft with cutset as) and succeeds. Moreover, the range
AS0-AS1000 is the first range of the sorted registry with MaxASN at least 500
and contains 500, so by the claim the entry should be AS0-AS1000; the code
returns the empty entry because its binary search steps over the non-monotone
MaxASN sequence 1000, 2, 4. -/
theorem C3_counterexample :
    parseASN ("sa500") = some 500 ∧
    (NewASNRegistry c3Entries).Lookup ("sa500") = .ok ⟨goRuneString 500, "", []⟩ ∧
    (NewASNRegistry c3Entries).ASNs.getD 0 dummyRange = ⟨0, 1000, [("u1")]⟩ ∧
    ((NewASNRegistry c3Entries).ASNs.getD 0 dummyRange).MinASN ≤ 500 ∧
    500 ≤ ((NewASNRegistry c3Entries).ASNs.getD 0 dummyRange).MaxASN :=
  ⟨rfl, rfl, rfl, by decide, by decide⟩

/-- Witness for C3 at a concrete registry with disjoint ranges: AS250 parses
to 250 and matches the second range AS200-AS300. -/
theorem C3_witness :
    ASNRegistry.Lookup (NewASNRegistry [(("1-100"), [("u")]), (("200-300"), [("v")])])
      ("AS250") = .ok ⟨goRuneString 250, ("AS200-AS300"), [("v")]⟩ := by
  have h := ((C3_asn_registry_lookup [(("1-100"), [("u")]), (("200-300"), [("v")])]
    ("AS250")).2.2.2 250 rfl).2 (by decide)
  rw [h]
  rfl

/-! ## Theorems: network registry longest-prefix match (claim C1) -/

instance : IsTotal NetEntry (fun a b => a.Net.addr ≤ b.Net.addr) :=
  ⟨fun a b => Nat.le_total a.Net.addr b.Net.addr⟩

instance : IsTrans NetEntry (fun a b => a.Net.addr ≤ b.Net.addr) :=
  ⟨fun _ _ _ h1 h2 => Nat.le_trans h1 h2⟩

theorem maskBits_le (bits m x : Nat) : maskBits bits m x ≤ x :=
  Nat.div_mul_le_self x (2 ^ (bits - m))

theorem lt_maskBits_add (bits m x : Nat) : x < maskBits bits m x + 2 ^ (bits - m) := by
  unfold maskBits
  have h1 := Nat.div_add_mod x (2 ^ (bits - m))
  rw [Nat.mul_comm] at h1
  have h2 : x % 2 ^ (bits - m) < 2 ^ (bits - m) :=
    Nat.mod_lt x (Nat.pos_pow_of_pos _ (by omega))
  omega

theorem maskBits_maskBits (bits m x : Nat) :
    maskBits bits m (maskBits bits m x) = maskBits bits m x := by
  unfold maskBits
  rw [Nat.mul_div_cancel _ (Nat.pos_pow_of_pos _ (by omega : 0 < 2))]

theorem masked_gap {bits m a b : Nat} (ha : maskBits bits m a = a)
    (hb : maskBits bits m b = b) (hab : b < a) : b + 2 ^ (bits - m) ≤ a := by
  unfold maskBits at ha hb
  have hk : 0 < 2 ^ (bits - m) := Nat.pos_pow_of_pos _ (by omega)
  have hlt : b / 2 ^ (bits - m) < a / 2 ^ (bits - m) := by
    by_contra hge
    have h1 : a / 2 ^ (bits - m) ≤ b / 2 ^ (bits - m) := by omega
    have h2 : a / 2 ^ (bits - m) * 2 ^ (bits - m) ≤ b / 2 ^ (bits - m) * 2 ^ (bits - m) :=
      Nat.mul_le_mul_right _ h1
    omega
  have h3 : (b / 2 ^ (bits - m) + 1) * 2 ^ (bits - m) ≤ a / 2 ^ (bits - m) * 2 ^ (bits - m) :=
    Nat.mul_le_mul_right _ (by omega)
  rw [Nat.add_mul, Nat.one_mul] at h3
  omega

/-- Invariants of a mask-length bucket established by NewNetRegistry: the mask
fits in the address width, every entry has this mask length, the family byte
length and a masked address, and the bucket is sorted by address. -/
def bucketWF (nb m : Nat) (bucket : List NetEntry) : Prop :=
  m ≤ 8 * nb ∧
  (∀ e ∈ bucket, e.Net.maskLen = m ∧ e.Net.ipLen = nb ∧
    maskBits (8 * nb) m e.Net.addr = e.Net.addr) ∧
  List.Pairwise (fun a b : NetEntry => a.Net.addr ≤ b.Net.addr) bucket

theorem containsAddr_iff {nb m : Nat} {e : NetEntry} {q : IPNet}
    (he : e.Net.maskLen = m ∧ e.Net.ipLen = nb ∧
      maskBits (8 * nb) m e.Net.addr = e.Net.addr)
    (hq : q.ipLen = nb) :
    e.Net.containsAddr q.ipLen q.addr = true ↔
      maskBits (8 * nb) m q.addr = e.Net.addr := by
  unfold IPNet.containsAddr
  rw [he.1, he.2.1, hq]
  simp

theorem net_pred_eq {nb m : Nat} {e : NetEntry} {q : IPNet}
    (he : e.Net.maskLen = m ∧ e.Net.ipLen = nb ∧
      maskBits (8 * nb) m e.Net.addr = e.Net.addr)
    (hq : q.ipLen = nb) :
    (e.Net.containsAddr q.ipLen q.addr || decide (q.addr ≤ e.Net.addr)) =
      decide (maskBits (8 * nb) m q.addr ≤ e.Net.addr) := by
  by_cases h1 : maskBits (8 * nb) m q.addr = e.Net.addr
  · rw [(containsAddr_iff he hq).mpr h1]
    simp only [Bool.true_or]
    rw [decide_eq_true (by omega)]
  · have hc : e.Net.containsAddr q.ipLen q.addr = false := by
      rcases hcc : e.Net.containsAddr q.ipLen q.addr with _ | _
      · rfl
      · exact absurd ((containsAddr_iff he hq).mp hcc) h1
    rw [hc]
    simp only [Bool.false_or]
    by_cases h2 : maskBits (8 * nb) m q.addr ≤ e.Net.addr
    · have hlt : maskBits (8 * nb) m q.addr < e.Net.addr := by omega
      have hgap := masked_gap (b := maskBits (8 * nb) m q.addr)
        (a := e.Net.addr) he.2.2 (maskBits_maskBits _ _ _) hlt
      have hqlt := lt_maskBits_add (8 * nb) m q.addr
      rw [decide_eq_true h2, decide_eq_true (by omega : q.addr ≤ e.Net.addr)]
    · have hle := maskBits_le (8 * nb) m q.addr
      rw [decide_eq_false h2, decide_eq_false (by omega : ¬ q.addr ≤ e.Net.addr)]

/-- Postcondition of net.ParseCIDR assumed of the parse oracle on the keys of
the entries list: a parsed network has a masked address and a mask length that
fits the address width (net.ParseCIDR guarantees both). -/
def parseOracleOK (parseCIDR : String → Option IPNet)
    (entries : List (String × List String)) : Bool :=
  entries.all (fun p =>
    match parseCIDR p.1 with
    | none => true
    | some net => decide (maskBits (8 * net.ipLen) net.maskLen net.addr = net.addr) &&
        decide (net.maskLen ≤ 8 * net.ipLen))

theorem mem_regEntries {reg : NetRegistry} {e : NetEntry} :
    e ∈ regEntries reg ↔ ∃ mb ∈ reg.Networks, e ∈ mb.2 := by
  unfold regEntries
  rw [List.mem_flatten]
  constructor
  · rintro ⟨l, hl, he⟩
    rcases List.mem_map.mp hl with ⟨mb, hmb, hmbl⟩
    exact ⟨mb, hmb, by rw [hmbl]; exact he⟩
  · rintro ⟨mb, hmb, he⟩
    exact ⟨mb.2, List.mem_map.mpr ⟨mb, hmb, rfl⟩, he⟩

/-- The effective predicate of the bucket binary search: the network address is
at least the query address masked to the bucket mask length. On a well-formed
bucket it coincides with the Contains-or-compare predicate of the code. -/
def pfxLe (w m qaddr : Nat) (e : NetEntry) : Bool :=
  decide (maskBits w m qaddr ≤ e.Net.addr)

theorem netStep_char (netString : IPNet → String) (q : IPNet) (nb m : Nat)
    (bucket : List NetEntry) (best : String × Nat × List String)
    (hw : bucketWF nb m bucket) (hq : q.ipLen = nb) :
    ((m < best.2.1 ∨ q.maskLen < m) →
      netLookupStep netString q best (m, bucket) = best) ∧
    (¬ (m < best.2.1 ∨ q.maskLen < m) →
      ((∃ e ∈ bucket, e.Net.containsAddr q.ipLen q.addr = true) →
        ∃ e ∈ bucket, e.Net.containsAddr q.ipLen q.addr = true ∧
          netLookupStep netString q best (m, bucket) = (netString e.Net, m, e.URLs)) ∧
      ((∀ e ∈ bucket, ¬ e.Net.containsAddr q.ipLen q.addr = true) →
        netLookupStep netString q best (m, bucket) = best)) := by
  obtain ⟨hmle, hent, hsorted⟩ := hw
  constructor
  · intro hskip
    unfold netLookupStep
    rw [if_pos hskip]
  · intro hns
    have hfp : ∀ i, i < bucket.length →
        ((bucket.getD i dummyNetEntry).Net.containsAddr q.ipLen q.addr ||
          decide (q.addr ≤ (bucket.getD i dummyNetEntry).Net.addr)) =
        pfxLe (8 * nb) m q.addr (bucket.getD i dummyNetEntry) := by
      intro i hi
      have hmem : bucket.getD i dummyNetEntry ∈ bucket := by
        rw [List.getD_eq_getElem _ _ hi]
        exact List.getElem_mem hi
      exact net_pred_eq (hent _ hmem) hq
    have hmono : ∀ i j, i ≤ j → j < bucket.length →
        pfxLe (8 * nb) m q.addr (bucket.getD i dummyNetEntry) = true →
        pfxLe (8 * nb) m q.addr (bucket.getD j dummyNetEntry) = true := by
      intro i j hij hj hpi
      simp only [pfxLe, decide_eq_true_eq] at hpi ⊢
      rcases Nat.lt_or_ge i j with hlt | hge
      · have hij2 := List.pairwise_iff_get.mp hsorted ⟨i, by omega⟩ ⟨j, hj⟩ hlt
        simp only [List.get_eq_getElem] at hij2
        rw [List.getD_eq_getElem _ _ (by omega : i < bucket.length)] at hpi
        rw [List.getD_eq_getElem _ _ hj]
        omega
      · have hij2 : i = j := by omega
        subst hij2
        exact hpi
    have heq := sortSearch_eq_firstIdx
      (pfxLe (8 * nb) m q.addr)
      dummyNetEntry bucket
      (fun i => (bucket.getD i dummyNetEntry).Net.containsAddr q.ipLen q.addr ||
        decide (q.addr ≤ (bucket.getD i dummyNetEntry).Net.addr))
      hfp hmono
    constructor
    · rintro ⟨e, hem, hce⟩
      have hea : e.Net.addr = maskBits (8 * nb) m q.addr :=
        ((containsAddr_iff (hent _ hem) hq).mp hce).symm
      rcases List.mem_iff_getElem.mp hem with ⟨ke, hke, hkee⟩
      have hpke : pfxLe (8 * nb) m q.addr (bucket.getD ke dummyNetEntry) = true := by
        rw [List.getD_eq_getElem _ _ hke, hkee]
        simp only [pfxLe, decide_eq_true_eq]
        omega
      rcases hfi : firstIdx (pfxLe (8 * nb) m q.addr) bucket with _ | i
      · exact absurd hpke (by rw [firstIdx_none _ dummyNetEntry bucket hfi ke hke]; simp)
      · obtain ⟨hilen, hpi, hbefore⟩ := firstIdx_some _ dummyNetEntry bucket i hfi
        have hike : i ≤ ke := by
          by_contra hgt
          rw [hbefore ke (by omega)] at hpke
          exact absurd hpke (by simp)
        have haddr : (bucket.getD i dummyNetEntry).Net.addr = maskBits (8 * nb) m q.addr := by
          simp only [pfxLe, decide_eq_true_eq] at hpi
          rcases Nat.lt_or_ge i ke with hlt | hge
          · have hij2 := List.pairwise_iff_get.mp hsorted ⟨i, by omega⟩ ⟨ke, hke⟩ hlt
            simp only [List.get_eq_getElem] at hij2
            rw [List.getD_eq_getElem _ _ hilen]
            rw [List.getD_eq_getElem _ _ hilen] at hpi
            rw [hkee] at hij2
            omega
          · have hie : i = ke := by omega
            subst hie
            rw [List.getD_eq_getElem _ _ hke, hkee, hea]
        have himem : bucket.getD i dummyNetEntry ∈ bucket := by
          rw [List.getD_eq_getElem _ _ hilen]
          exact List.getElem_mem hilen
        have hci : (bucket.getD i dummyNetEntry).Net.containsAddr q.ipLen q.addr = true :=
          (containsAddr_iff (hent _ himem) hq).mpr haddr.symm
        refine ⟨bucket.getD i dummyNetEntry, himem, hci, ?_⟩
        unfold netLookupStep
        rw [if_neg hns]
        simp only [heq, hfi]
        rw [if_neg (by omega), if_pos hci]
    · intro hnone
      unfold netLookupStep
      rw [if_neg hns]
      simp only [heq]
      rcases hfi : firstIdx (pfxLe (8 * nb) m q.addr) bucket with _ | i
      · simp only [hfi]
        simp
      · simp only [hfi]
        obtain ⟨hilen, hpi, hbefore⟩ := firstIdx_some _ dummyNetEntry bucket i hfi
        rw [if_neg (by omega)]
        have himem : bucket.getD i dummyNetEntry ∈ bucket := by
          rw [List.getD_eq_getElem _ _ hilen]
          exact List.getElem_mem hilen
        rw [if_neg (by simpa using hnone _ himem)]

/-- A mask-length bucket that can contribute a hit above the threshold t: its
mask is at least t, at most the query mask, and it holds a network containing
the query address. -/
def GoodB (q : IPNet) (t : Nat) (mb : Nat × List NetEntry) : Prop :=
  t ≤ mb.1 ∧ mb.1 ≤ q.maskLen ∧ ∃ e ∈ mb.2, e.Net.containsAddr q.ipLen q.addr = true

theorem netFold_char (netString : IPNet → String) (q : IPNet) (nb : Nat) (hq : q.ipLen = nb) :
    ∀ (bks : List (Nat × List NetEntry)),
      (∀ mb ∈ bks, bucketWF nb mb.1 mb.2) →
      ∀ (best : String × Nat × List String),
      ((∀ mb ∈ bks, ¬ GoodB q best.2.1 mb) →
        bks.foldl (netLookupStep netString q) best = best) ∧
      (∀ mb0 ∈ bks, GoodB q best.2.1 mb0 →
        ∃ mb ∈ bks, ∃ e ∈ mb.2, GoodB q best.2.1 mb ∧
          e.Net.containsAddr q.ipLen q.addr = true ∧
          bks.foldl (netLookupStep netString q) best = (netString e.Net, mb.1, e.URLs) ∧
          (∀ mb2 ∈ bks, GoodB q best.2.1 mb2 → mb2.1 ≤ mb.1)) := by
  intro bks
  induction bks with
  | nil =>
    intro hwf best
    exact ⟨fun _ => rfl, fun mb0 hmb0 _ => absurd hmb0 (by simp)⟩
  | cons mbh rest ih =>
    rcases mbh with ⟨m, bucket⟩
    intro hwf best
    have hwmb : bucketWF nb m bucket := hwf (m, bucket) (by simp)
    have hwrest : ∀ mb ∈ rest, bucketWF nb mb.1 mb.2 :=
      fun mb hm => hwf mb (by simp [hm])
    have hstep := netStep_char netString q nb m bucket best hwmb hq
    by_cases hskip : m < best.2.1 ∨ q.maskLen < m
    · have hng : ¬ GoodB q best.2.1 (m, bucket) := by
        rintro ⟨h1, h2, _⟩
        simp only at h1 h2
        omega
      have hsb : netLookupStep netString q best (m, bucket) = best := hstep.1 hskip
      rw [List.foldl_cons, hsb]
      obtain ⟨ihA, ihB⟩ := ih hwrest best
      constructor
      · intro hnall
        exact ihA (fun mb hm => hnall mb (by simp [hm]))
      · intro mb0 hmb0 hgood0
        have hmb0r : mb0 ∈ rest := by
          rcases List.mem_cons.mp hmb0 with he | hm
          · exact absurd (he ▸ hgood0) hng
          · exact hm
        obtain ⟨mb2, hmb2, e2, he2, hg2, hc2, hr2, hmax2⟩ := ihB mb0 hmb0r hgood0
        refine ⟨mb2, by simp [hmb2], e2, he2, hg2, hc2, hr2, ?_⟩
        intro mb3 hmb3 hg3
        rcases List.mem_cons.mp hmb3 with he | hm
        · exact absurd (he ▸ hg3) hng
        · exact hmax2 mb3 hm hg3
    · have hns2 : best.2.1 ≤ m ∧ m ≤ q.maskLen := by
        rcases Nat.lt_or_ge m best.2.1 with h | h
        · exact absurd (Or.inl h) hskip
        · rcases Nat.lt_or_ge q.maskLen m with h2 | h2
          · exact absurd (Or.inr h2) hskip
          · exact ⟨h, h2⟩
      by_cases hhit : ∃ e ∈ bucket, e.Net.containsAddr q.ipLen q.addr = true
      · obtain ⟨e0, he0m, he0c, hres⟩ := (hstep.2 hskip).1 hhit
        have hgoodh : GoodB q best.2.1 (m, bucket) := ⟨hns2.1, hns2.2, hhit⟩
        rw [List.foldl_cons, hres]
        obtain ⟨ihA, ihB⟩ := ih hwrest (netString e0.Net, m, e0.URLs)
        constructor
        · intro hnall
          exact absurd hgoodh (hnall (m, bucket) (by simp))
        · intro mb0 hmb0 hgood0
          by_cases hrg : ∃ mbr ∈ rest, GoodB q m mbr
          · obtain ⟨mbr, hmbrm, hgoodr⟩ := hrg
            obtain ⟨mb2, hmb2, e2, he2, hg2, hc2, hr2, hmax2⟩ := ihB mbr hmbrm hgoodr
            obtain ⟨g1, g2, g3⟩ := hg2
            have g1b : m ≤ mb2.1 := g1
            refine ⟨mb2, by simp [hmb2], e2, he2, ⟨by omega, g2, g3⟩, hc2, hr2, ?_⟩
            intro mb3 hmb3 hg3
            rcases List.mem_cons.mp hmb3 with he | hm
            · rw [he]
              exact g1b
            · by_cases hgm : GoodB q m mb3
              · exact hmax2 mb3 hm hgm
              · obtain ⟨k1, k2, k3⟩ := hg3
                have hk : ¬ m ≤ mb3.1 := fun hle => hgm ⟨hle, k2, k3⟩
                omega
          · have hrall : ∀ mbr ∈ rest, ¬ GoodB q m mbr :=
              fun mbr hm hg => hrg ⟨mbr, hm, hg⟩
            rw [ihA hrall]
            refine ⟨(m, bucket), by simp, e0, he0m, hgoodh, he0c, rfl, ?_⟩
            intro mb3 hmb3 hg3
            rcases List.mem_cons.mp hmb3 with he | hm
            · rw [he]
            · obtain ⟨k1, k2, k3⟩ := hg3
              by_contra hgt
              have hgt2 : ¬ mb3.1 ≤ m := hgt
              exact hrg ⟨mb3, hm, ⟨by omega, k2, k3⟩⟩
      · have hng : ¬ GoodB q best.2.1 (m, bucket) := by
          rintro ⟨h1, h2, h3⟩
          exact hhit h3
        have hsb : netLookupStep netString q best (m, bucket) = best :=
          (hstep.2 hskip).2 (by
            intro e he hc
            exact hhit ⟨e, he, hc⟩)
        rw [List.foldl_cons, hsb]
        obtain ⟨ihA, ihB⟩ := ih hwrest best
        constructor
        · intro hnall
          exact ihA (fun mb hm => hnall mb (by simp [hm]))
        · intro mb0 hmb0 hgood0
          have hmb0r : mb0 ∈ rest := by
            rcases List.mem_cons.mp hmb0 with he | hm
            · exact absurd (he ▸ hgood0) hng
            · exact hm
          obtain ⟨mb2, hmb2, e2, he2, hg2, hc2, hr2, hmax2⟩ := ihB mb0 hmb0r hgood0
          refine ⟨mb2, by simp [hmb2], e2, he2, hg2, hc2, hr2, ?_⟩
          intro mb3 hmb3 hg3
          rcases List.mem_cons.mp hmb3 with he | hm
          · exact absurd (he ▸ hg3) hng
          · exact hmax2 mb3 hm hg3

theorem parsed_entry_props {parseCIDR : String → Option IPNet}
    {entries : List (String × List String)} {nb : Nat}
    (hor : parseOracleOK parseCIDR entries = true) {e : NetEntry}
    (he : e ∈ entries.filterMap (fun p =>
      match parseCIDR p.1 with
      | none => none
      | some net => if net.ipLen ≠ nb then none else some ⟨net, p.2⟩)) :
    e.Net.ipLen = nb ∧ maskBits (8 * nb) e.Net.maskLen e.Net.addr = e.Net.addr ∧
      e.Net.maskLen ≤ 8 * nb := by
  rcases List.mem_filterMap.mp he with ⟨p, hp, hpe⟩
  rcases hpc : parseCIDR p.1 with _ | net
  · simp only [hpc] at hpe
    exact absurd hpe (by simp)
  · simp only [hpc] at hpe
    by_cases hl : net.ipLen ≠ nb
    · rw [if_pos hl] at hpe
      exact absurd hpe (by simp)
    · rw [if_neg hl] at hpe
      simp only [Option.some.injEq] at hpe
      have ho := List.all_eq_true.mp hor p hp
      simp only [hpc, Bool.and_eq_true, decide_eq_true_eq] at ho
      have hlnb : net.ipLen = nb := by
        by_contra hc
        exact hl hc
      subst hpe
      refine ⟨hlnb, ?_, ?_⟩
      · rw [← hlnb]
        exact ho.1
      · rw [← hlnb]
        exact ho.2

theorem NewNetRegistry_wf (parseCIDR : String → Option IPNet)
    (entries : List (String × List String)) (v : Nat) (hv : v = 4 ∨ v = 6)
    (hor : parseOracleOK parseCIDR entries = true) :
    ∃ reg, NewNetRegistry parseCIDR entries v = .ok reg ∧
      reg.numIPBytes = numIPBytesForVersion v ∧
      ∀ mb ∈ reg.Networks, bucketWF reg.numIPBytes mb.1 mb.2 := by
  have hne : ¬ (v ≠ 4 ∧ v ≠ 6) := by
    rcases hv with h | h <;> simp [h]
  unfold NewNetRegistry
  rw [if_neg hne]
  refine ⟨_, rfl, rfl, ?_⟩
  intro mb hmb
  rcases List.mem_map.mp hmb with ⟨m, hm, hmb2⟩
  subst hmb2
  have hmask : ∃ e2, e2 ∈ entries.filterMap (fun p =>
      match parseCIDR p.1 with
      | none => none
      | some net => if net.ipLen ≠ numIPBytesForVersion v then none
        else some (NetEntry.mk net p.2)) ∧ e2.Net.maskLen = m := by
    rcases List.mem_map.mp (List.mem_dedup.mp hm) with ⟨e2, he2, he2m⟩
    exact ⟨e2, he2, he2m⟩
  refine ⟨?_, ?_, ?_⟩
  · rcases hmask with ⟨e2, he2, he2m⟩
    have hp := parsed_entry_props hor he2
    rw [← he2m]
    exact hp.2.2
  · intro e hee
    have hef : e ∈ (entries.filterMap (fun p =>
        match parseCIDR p.1 with
        | none => none
        | some net => if net.ipLen ≠ numIPBytesForVersion v then none
          else some (NetEntry.mk net p.2))).filter (fun e => e.Net.maskLen == m) :=
      (List.perm_insertionSort (fun a b : NetEntry => a.Net.addr ≤ b.Net.addr)
        _).mem_iff.mp hee
    rcases List.mem_filter.mp hef with ⟨hep, hem⟩
    have hp := parsed_entry_props hor hep
    have hemm : e.Net.maskLen = m := by simpa using hem
    refine ⟨hemm, hp.1, ?_⟩
    rw [← hemm]
    exact hp.2.1
  · exact List.sorted_insertionSort (fun a b : NetEntry => a.Net.addr ≤ b.Net.addr) _

/-- C1: looking up in a network registry built for family v from the parsed
entries (net.ParseCIDR and net.IPNet.String as oracles, with the ParseCIDR
postconditions assumed). A bare address is completed with a full-length mask
(/32 or /128 via 8 times the family byte length); an unparsable CIDR and an
address-family length mismatch are reported errors; otherwise, among the stored
entries whose mask length is at most the query mask and whose network contains
the query starting address, one with the LONGEST mask is returned (its network
is unique; its URL list is that of such a stored entry), and if no stored entry
qualifies the Answer has an empty entry and no URLs, without error. -/
theorem C1_net_registry_longest_match (parseCIDR : String → Option IPNet)
    (netString : IPNet → String) (entries : List (String × List String)) (v : Nat)
    (input : String) (hv : v = 4 ∨ v = 6)
    (hor : parseOracleOK parseCIDR entries = true) :
    ∃ reg, NewNetRegistry parseCIDR entries v = .ok reg ∧
      reg.numIPBytes = numIPBytesForVersion v ∧
      (parseCIDR (effectiveInput reg.numIPBytes input) = none →
        ∃ e, NetRegistry.Lookup parseCIDR netString reg input = .error e) ∧
      (∀ q, parseCIDR (effectiveInput reg.numIPBytes input) = some q →
        ¬ q.ipLen = reg.numIPBytes →
        ∃ e, NetRegistry.Lookup parseCIDR netString reg input = .error e) ∧
      (∀ q, parseCIDR (effectiveInput reg.numIPBytes input) = some q →
        q.ipLen = reg.numIPBytes →
        ((∀ en ∈ regEntries reg, ¬ (en.Net.maskLen ≤ q.maskLen ∧
              en.Net.containsAddr q.ipLen q.addr = true)) →
          NetRegistry.Lookup parseCIDR netString reg input =
            .ok ⟨effectiveInput reg.numIPBytes input, "", []⟩) ∧
        (∀ en0 ∈ regEntries reg, en0.Net.maskLen ≤ q.maskLen →
          en0.Net.containsAddr q.ipLen q.addr = true →
          ∃ en ∈ regEntries reg, en.Net.maskLen ≤ q.maskLen ∧
            en.Net.containsAddr q.ipLen q.addr = true ∧
            NetRegistry.Lookup parseCIDR netString reg input =
              .ok ⟨effectiveInput reg.numIPBytes input, netString en.Net, en.URLs⟩ ∧
            (∀ en2 ∈ regEntries reg, en2.Net.maskLen ≤ q.maskLen →
              en2.Net.containsAddr q.ipLen q.addr = true →
              en2.Net.maskLen ≤ en.Net.maskLen))) := by
  obtain ⟨reg, hregeq, hnb, hwf⟩ := NewNetRegistry_wf parseCIDR entries v hv hor
  refine ⟨reg, hregeq, hnb, ?_, ?_, ?_⟩
  · intro hpc
    unfold NetRegistry.Lookup
    simp only [hpc]
    exact ⟨_, rfl⟩
  · intro q hpc hlen
    unfold NetRegistry.Lookup
    simp only [hpc]
    rw [if_pos hlen]
    exact ⟨_, rfl⟩
  · intro q hpc hlen
    constructor
    · intro hnone
      unfold NetRegistry.Lookup
      simp only [hpc]
      rw [if_neg (fun h => h hlen)]
      have hA : ∀ mb ∈ reg.Networks,
          ¬ GoodB q ((("", 0, []) : String × Nat × List String)).2.1 mb := by
        rintro mb hmb ⟨h1, h2, e, hem, hec⟩
        have hmask : e.Net.maskLen = mb.1 := ((hwf mb hmb).2.1 e hem).1
        exact hnone e (mem_regEntries.mpr ⟨mb, hmb, hem⟩) ⟨by omega, hec⟩
      have hfold := (netFold_char netString q reg.numIPBytes hlen reg.Networks hwf
        (("", 0, []) : String × Nat × List String)).1 hA
      rw [hfold]
    · intro en0 hen0 hml0 hc0
      rcases mem_regEntries.mp hen0 with ⟨mb0, hmb0, he0⟩
      have hmb0mask : en0.Net.maskLen = mb0.1 := ((hwf mb0 hmb0).2.1 en0 he0).1
      have hgood : GoodB q ((("", 0, []) : String × Nat × List String)).2.1 mb0 :=
        ⟨Nat.zero_le _, by rw [← hmb0mask]; exact hml0, en0, he0, hc0⟩
      obtain ⟨mb, hmb, e, he, hg, hc, hr, hmax⟩ :=
        (netFold_char netString q reg.numIPBytes hlen reg.Networks hwf
          (("", 0, []) : String × Nat × List String)).2 mb0 hmb0 hgood
      have hemask : e.Net.maskLen = mb.1 := ((hwf mb hmb).2.1 e he).1
      refine ⟨e, mem_regEntries.mpr ⟨mb, hmb, he⟩,
        by rw [hemask]; exact hg.2.1, hc, ?_, ?_⟩
      · unfold NetRegistry.Lookup
        simp only [hpc]
        rw [if_neg (fun h => h hlen)]
        rw [hr, ← hemask]
      · intro en2 hen2 hml2 hc2
        rcases mem_regEntries.mp hen2 with ⟨mb2, hmb2, he2⟩
        have h2mask : en2.Net.maskLen = mb2.1 := ((hwf mb2 hmb2).2.1 en2 he2).1
        have hgood2 : GoodB q ((("", 0, []) : String × Nat × List String)).2.1 mb2 :=
          ⟨Nat.zero_le _, by rw [← h2mask]; exact hml2, en2, he2, hc2⟩
        have hle := hmax mb2 hmb2 hgood2
        rw [h2mask, hemask]
        exact hle

/-- Concrete net.ParseCIDR oracle for the C1 witness (41.0.0.0 is 687865856). -/
def c1Parse (s : String) : Option IPNet :=
  if s = ("41.0.0.0/8") then some ⟨4, 687865856, 8⟩
  else if s = ("41.1.0.0/16") then some ⟨4, 687931392, 16⟩
  else if s = ("41.1.2.3/32") then some ⟨4, 687931907, 32⟩
  else none

/-- Concrete net.IPNet.String oracle for the C1 witness. -/
def c1NetString (n : IPNet) : String :=
  if n.maskLen = 8 then ("41.0.0.0/8") else ("41.1.0.0/16")

/-- Entries for the C1 witness: a /8 and a nested, more specific /16. -/
def c1Entries : List (String × List String) :=
  [(("41.0.0.0/8"), [("https://rdap.afrinic.net/rdap/")]),
   (("41.1.0.0/16"), [("https://sixteen.example/rdap/")])]

/-- Witness for C1: looking up the bare address 41.1.2.3 against the /8 and
/16 entries; the effective input gains a /32 mask and the more specific /16
entry wins the longest-match. -/
theorem C1_witness :
    ∃ reg, NewNetRegistry c1Parse c1Entries 4 = .ok reg ∧
      reg.numIPBytes = numIPBytesForVersion 4 ∧
      (c1Parse (effectiveInput reg.numIPBytes ("41.1.2.3")) = none →
        ∃ e, NetRegistry.Lookup c1Parse c1NetString reg ("41.1.2.3") = .error e) ∧
      (∀ q, c1Parse (effectiveInput reg.numIPBytes ("41.1.2.3")) = some q →
        ¬ q.ipLen = reg.numIPBytes →
        ∃ e, NetRegistry.Lookup c1Parse c1NetString reg ("41.1.2.3") = .error e) ∧
      (∀ q, c1Parse (effectiveInput reg.numIPBytes ("41.1.2.3")) = some q →
        q.ipLen = reg.numIPBytes →
        ((∀ en ∈ regEntries reg, ¬ (en.Net.maskLen ≤ q.maskLen ∧
              en.Net.containsAddr q.ipLen q.addr = true)) →
          NetRegistry.Lookup c1Parse c1NetString reg ("41.1.2.3") =
            .ok ⟨effectiveInput reg.numIPBytes ("41.1.2.3"), "", []⟩) ∧
        (∀ en0 ∈ regEntries reg, en0.Net.maskLen ≤ q.maskLen →
          en0.Net.containsAddr q.ipLen q.addr = true →
          ∃ en ∈ regEntries reg, en.Net.maskLen ≤ q.maskLen ∧
            en.Net.containsAddr q.ipLen q.addr = true ∧
            NetRegistry.Lookup c1Parse c1NetString reg ("41.1.2.3") =
              .ok ⟨effectiveInput reg.numIPBytes ("41.1.2.3"),
                c1NetString en.Net, en.URLs⟩ ∧
            (∀ en2 ∈ regEntries reg, en2.Net.maskLen ≤ q.maskLen →
              en2.Net.containsAddr q.ipLen q.addr = true →
              en2.Net.maskLen ≤ en.Net.maskLen))) :=
  C1_net_registry_longest_match c1Parse c1NetString c1Entries 4 ("41.1.2.3")
    (Or.inl rfl) (by decide)

/-- Witness for C4 at a concrete registry holding example.com and com, with
the mixed-case dotted input Sub.Example.COM. that canonicalises to
sub.example.com. -/
theorem C4_witness :
    (DNSRegistry.Lookup ⟨[(("example.com"), [("u1")]), (("com"), [("u2")])]⟩
      ("Sub.Example.COM.")).Query =
      goToLower (goTrimDotSuffix ("Sub.Example.COM.")) ∧
    ((∃ s, probeOf (goToLower (goTrimDotSuffix ("Sub.Example.COM."))).data s ∧
        lookupMap [(("example.com"), [("u1")]), (("com"), [("u2")])] (String.mk s) =
          some (DNSRegistry.Lookup ⟨[(("example.com"), [("u1")]), (("com"), [("u2")])]⟩
            ("Sub.Example.COM.")).URLs ∧
        (DNSRegistry.Lookup ⟨[(("example.com"), [("u1")]), (("com"), [("u2")])]⟩
          ("Sub.Example.COM.")).Entry = String.mk s ∧
        (∀ s2, probeOf (goToLower (goTrimDotSuffix ("Sub.Example.COM."))).data s2 →
          s.length < s2.length →
          lookupMap [(("example.com"), [("u1")]), (("com"), [("u2")])] (String.mk s2) =
            none)) ∨
      ((∀ s, probeOf (goToLower (goTrimDotSuffix ("Sub.Example.COM."))).data s →
          lookupMap [(("example.com"), [("u1")]), (("com"), [("u2")])] (String.mk s) =
            none) ∧
        (DNSRegistry.Lookup ⟨[(("example.com"), [("u1")]), (("com"), [("u2")])]⟩
          ("Sub.Example.COM.")).Entry = "" ∧
        (DNSRegistry.Lookup ⟨[(("example.com"), [("u1")]), (("com"), [("u2")])]⟩
          ("Sub.Example.COM.")).URLs = [])) :=
  C4_dns_lookup_suffix_search ⟨[(("example.com"), [("u1")]), (("com"), [("u2")])]⟩
    ("Sub.Example.COM.")

end Rdap
